import Mathlib

/-!
Verification of the MBO-to-MBP order-book reconstructor.

The definitions below are a shallow embedding of the C++ sources:
`include/types.h`, `include/order.h`, `include/orderbook.h`,
`src/orderbook.cpp`, `include/records.h`, `src/records.cpp`,
`src/utils.cpp`, `src/mbo_processor.cpp`.

Machine integers are modelled as `Nat`/`Int` with explicit `% 2^32`
where the C++ `uint32_t` fields wrap.  `std::map` side books become
association lists kept sorted by the side comparator;
`std::unordered_map` becomes an association list with
insert-or-assign / erase semantics.  A C++ function that can throw is
modelled as returning `State × Bool`, where the `Bool` says whether it
threw and the state carries every mutation committed before the throw
(C++ leaves such partial mutations in place).
-/

namespace MBP

/-- `kUndefPrice = INT64_MAX` from `types.h`. -/
def kUndefPrice : Int := 9223372036854775807

/-- `2^32`, the modulus of the `uint32_t` fields (`Size`, `order_count`). -/
def U32 : Nat := 4294967296

/-- `utils::IsValidPrice`: `price != kUndefPrice && price > 0`. -/
def IsValidPrice (p : Int) : Bool := p != kUndefPrice && p > 0

/-- `utils::IsValidSize`: `size > 0`. -/
def IsValidSize (s : Nat) : Bool := s != 0

/-- `utils::IsValidSide`: side is one of `'B'`, `'A'`, `'N'`. -/
def IsValidSide (c : Char) : Bool := c == 'B' || c == 'A' || c == 'N'

/-- `utils::IsValidAction`: action is one of the seven known codes. -/
def IsValidAction (c : Char) : Bool :=
  c == 'A' || c == 'C' || c == 'M' || c == 'T' || c == 'F' || c == 'R' || c == 'N'

/-- The fields of `MBORecord` that the core state machine reads
(timestamps, flags, sequence, symbol are echoed opaquely and omitted). -/
structure MBORecord where
  action : Char
  side : Char
  price : Int
  size : Nat
  order_id : Nat
deriving Repr, DecidableEq

/-- `MBORecord::IsValid` from `records.h`. -/
def MBORecord.IsValid (r : MBORecord) : Bool :=
  IsValidAction r.action && IsValidSide r.side &&
  (r.action == 'R' || IsValidPrice r.price) &&
  (r.action == 'R' || IsValidSize r.size)

/-- Generic association-list lookup (`std::unordered_map::find`). -/
def aFind {α β : Type} [DecidableEq α] : List (α × β) → α → Option β
  | [], _ => none
  | e :: rest, k => if e.1 = k then some e.2 else aFind rest k

/-- Generic association-list insert-or-assign (`map[k] = v`). -/
def aSet {α β : Type} [DecidableEq α] : List (α × β) → α → β → List (α × β)
  | [], k, v => [(k, v)]
  | e :: rest, k, v => if e.1 = k then (k, v) :: rest else e :: aSet rest k v

/-- Generic association-list erase (`map.erase(k)`). -/
def aErase {α β : Type} [DecidableEq α] : List (α × β) → α → List (α × β)
  | [], _ => []
  | e :: rest, k => if e.1 = k then aErase rest k else e :: aErase rest k

/-- `PriceLevel` from `order.h`: the per-order `orders` map plus the
`uint32_t` aggregates `total_size` and `order_count`. -/
structure PriceLevel where
  price : Int
  total_size : Nat
  order_count : Nat
  orders : List (Nat × Nat)
deriving Repr, DecidableEq

/-- The default-constructed `PriceLevel`. -/
def PriceLevel.mk0 : PriceLevel := ⟨kUndefPrice, 0, 0, []⟩

/-- `PriceLevel::IsEmpty`. -/
def PriceLevel.IsEmpty (l : PriceLevel) : Bool :=
  l.price == kUndefPrice || l.order_count == 0

/-- `PriceLevel::AddOrder`: `orders[oid] = size; total_size += size;
order_count++;` with `uint32_t` wrap-around. -/
def PriceLevel.AddOrder (l : PriceLevel) (oid s : Nat) : PriceLevel :=
  { l with orders := aSet l.orders oid (s % U32),
           total_size := (l.total_size + s) % U32,
           order_count := (l.order_count + 1) % U32 }

/-- `PriceLevel::RemoveOrder`. -/
def PriceLevel.RemoveOrder (l : PriceLevel) (oid : Nat) : PriceLevel :=
  match aFind l.orders oid with
  | none => l
  | some s =>
      let oc := (l.order_count + U32 - 1) % U32
      if oc = 0 then
        { price := kUndefPrice, total_size := 0, order_count := oc,
          orders := aErase l.orders oid }
      else
        { l with total_size := (l.total_size + U32 - s) % U32,
                 order_count := oc,
                 orders := aErase l.orders oid }

/-- `PriceLevel::ModifyOrder`: replace the stored size, adjusting `total_size`. -/
def PriceLevel.ModifyOrder (l : PriceLevel) (oid ns : Nat) : PriceLevel :=
  match aFind l.orders oid with
  | none => l
  | some s =>
      { l with total_size := ((l.total_size + U32 - s) % U32 + ns) % U32,
               orders := aSet l.orders oid (ns % U32) }

/-- `PriceLevel::HasOrder`. -/
def PriceLevel.HasOrder (l : PriceLevel) (oid : Nat) : Bool :=
  (aFind l.orders oid).isSome

/-- `PriceLevel::GetOrderSize`. -/
def PriceLevel.GetOrderSize (l : PriceLevel) (oid : Nat) : Nat :=
  (aFind l.orders oid).getD 0

/-- `CompactPriceLevel` from `order.h`. -/
structure CompactPriceLevel where
  price : Int
  size : Nat
  count : Nat
deriving Repr, DecidableEq

/-- The default-constructed `CompactPriceLevel`. -/
def CompactPriceLevel.mk0 : CompactPriceLevel := ⟨kUndefPrice, 0, 0⟩

/-- `CompactPriceLevel(const PriceLevel&)`. -/
def CompactPriceLevel.ofLevel (l : PriceLevel) : CompactPriceLevel :=
  ⟨l.price, l.total_size, l.order_count⟩

/-- One side book: `std::map<Price, PriceLevel, cmp>` as a sorted
association list. -/
abbrev SideMap := List (Int × PriceLevel)

/-- Bid comparator `std::greater<Price>`. -/
def bidLT (a b : Int) : Bool := b < a

/-- Ask comparator `std::less<Price>`. -/
def askLT (a b : Int) : Bool := a < b

/-- `map.find(p)` on a side book. -/
def smFind (m : SideMap) (p : Int) : Option PriceLevel := aFind m p

/-- The price initialisation inside `OrderBook::GetOrCreateLevel`:
`if (level.price == kUndefPrice) level.price = price;`. -/
def fixPrice (p : Int) (l : PriceLevel) : PriceLevel :=
  if l.price = kUndefPrice then { l with price := p } else l

/-- `GetOrCreateLevel(side, p)` followed by an in-place mutation `g` of
the returned level: ordered insert-or-modify on the side book. -/
def smUpsert (lt : Int → Int → Bool) (p : Int) (g : PriceLevel → PriceLevel) :
    SideMap → SideMap
  | [] => [(p, g (fixPrice p PriceLevel.mk0))]
  | e :: rest =>
      if e.1 = p then (p, g (fixPrice p e.2)) :: rest
      else if lt p e.1 then (p, g (fixPrice p PriceLevel.mk0)) :: e :: rest
      else e :: smUpsert lt p g rest

/-- `map.erase(p)` on a side book. -/
def smErase (p : Int) (m : SideMap) : SideMap := aErase m p

/-- `OrderBook::RemoveEmptyLevel` for one side. -/
def smRemoveEmpty (p : Int) (m : SideMap) : SideMap :=
  match smFind m p with
  | some l => if l.IsEmpty then smErase p m else m
  | none => m

/-- `OrderBook` state: the two side books, the order index
(`order_lookup_ : oid → (price, side)`) and the dirty flag. -/
structure OrderBook where
  bids : SideMap
  asks : SideMap
  order_lookup : List (Nat × Int × Char)
  has_changes : Bool
deriving Repr, DecidableEq

/-- The freshly constructed (empty) book. -/
def OrderBook.init : OrderBook := ⟨[], [], [], false⟩

/-- `OrderBook::AddOrder`.  Throws (second component `true`) on a
duplicate `order_id` or an unusable side, committing nothing. -/
def OrderBook.AddOrder (b : OrderBook) (r : MBORecord) : OrderBook × Bool :=
  if (aFind b.order_lookup r.order_id).isSome then (b, true)
  else if r.side = 'B' then
    ({ b with bids := smUpsert bidLT r.price (fun l => l.AddOrder r.order_id r.size) b.bids,
              order_lookup := aSet b.order_lookup r.order_id (r.price, r.side),
              has_changes := true }, false)
  else if r.side = 'A' then
    ({ b with asks := smUpsert askLT r.price (fun l => l.AddOrder r.order_id r.size) b.asks,
              order_lookup := aSet b.order_lookup r.order_id (r.price, r.side),
              has_changes := true }, false)
  else (b, true)

/-- `OrderBook::CancelOrder`.  Unknown oid: silent success without
setting the dirty flag. -/
def OrderBook.CancelOrder (b : OrderBook) (r : MBORecord) : OrderBook × Bool :=
  match aFind b.order_lookup r.order_id with
  | none => (b, false)
  | some (p, s) =>
      if s = 'B' then
        ({ b with bids := smRemoveEmpty p (smUpsert bidLT p (fun l => l.RemoveOrder r.order_id) b.bids),
                  order_lookup := aErase b.order_lookup r.order_id,
                  has_changes := true }, false)
      else if s = 'A' then
        ({ b with asks := smRemoveEmpty p (smUpsert askLT p (fun l => l.RemoveOrder r.order_id) b.asks),
                  order_lookup := aErase b.order_lookup r.order_id,
                  has_changes := true }, false)
      else (b, true)

/-- Second half of the move branch of `OrderBook::ModifyOrder`: insert
at the event's `(side, price)` and update the index.  When the event
side is neither `'B'` nor `'A'`, `GetOrCreateLevel` throws and the
partially mutated state `b1` (order already removed from its
old level) is left behind. -/
def OrderBook.moveAdd (b1 : OrderBook) (r : MBORecord) : OrderBook × Bool :=
  if r.side = 'B' then
    ({ b1 with bids := smUpsert bidLT r.price (fun l => l.AddOrder r.order_id r.size) b1.bids,
               order_lookup := aSet b1.order_lookup r.order_id (r.price, r.side),
               has_changes := true }, false)
  else if r.side = 'A' then
    ({ b1 with asks := smUpsert askLT r.price (fun l => l.AddOrder r.order_id r.size) b1.asks,
               order_lookup := aSet b1.order_lookup r.order_id (r.price, r.side),
               has_changes := true }, false)
  else (b1, true)

/-- `OrderBook::ModifyOrder`. -/
def OrderBook.ModifyOrder (b : OrderBook) (r : MBORecord) : OrderBook × Bool :=
  match aFind b.order_lookup r.order_id with
  | none => b.AddOrder r
  | some (op, os) =>
      if op ≠ r.price ∨ os ≠ r.side then
        if os = 'B' then
          OrderBook.moveAdd
            { b with bids := smRemoveEmpty op (smUpsert bidLT op (fun l => l.RemoveOrder r.order_id) b.bids) } r
        else if os = 'A' then
          OrderBook.moveAdd
            { b with asks := smRemoveEmpty op (smUpsert askLT op (fun l => l.RemoveOrder r.order_id) b.asks) } r
        else (b, true)
      else
        if r.side = 'B' then
          ({ b with bids := smUpsert bidLT r.price (fun l => l.ModifyOrder r.order_id r.size) b.bids,
                    has_changes := true }, false)
        else if r.side = 'A' then
          ({ b with asks := smUpsert askLT r.price (fun l => l.ModifyOrder r.order_id r.size) b.asks,
                    has_changes := true }, false)
        else (b, true)

/-- `OrderBook::Clear`. -/
def OrderBook.Clear (_ : OrderBook) : OrderBook := ⟨[], [], [], true⟩

/-- `OrderBook::Apply`: validate, then route by action.  Trade, Fill
and None leave the book untouched. -/
def OrderBook.Apply (b : OrderBook) (r : MBORecord) : OrderBook × Bool :=
  if !r.IsValid then (b, true)
  else if r.action = 'A' then b.AddOrder r
  else if r.action = 'C' then b.CancelOrder r
  else if r.action = 'M' then b.ModifyOrder r
  else if r.action = 'R' then (b.Clear, false)
  else if r.action = 'T' ∨ r.action = 'F' ∨ r.action = 'N' then (b, false)
  else (b, true)

/-- The collection loop shared by `GetTopBids`/`GetTopAsks`: walk the
side book in order, skip empty levels, stop after `k` yields. -/
def topLevels : Nat → SideMap → List CompactPriceLevel
  | _, [] => []
  | k, e :: rest =>
      if k = 0 then []
      else if e.2.IsEmpty then topLevels k rest
      else CompactPriceLevel.ofLevel e.2 :: topLevels (k - 1) rest

/-- `OrderBook::GetTopBids`. -/
def OrderBook.GetTopBids (b : OrderBook) (k : Nat) : List CompactPriceLevel :=
  topLevels k b.bids

/-- `OrderBook::GetTopAsks`. -/
def OrderBook.GetTopAsks (b : OrderBook) (k : Nat) : List CompactPriceLevel :=
  topLevels k b.asks

/-- `OrderBook::ValidateConsistency` (the debugging check from
`orderbook.cpp`): every indexed order is in its level and every level
order is correctly indexed. -/
def OrderBook.ValidateConsistency (b : OrderBook) : Bool :=
  b.order_lookup.all (fun e =>
    match (if e.2.2 = 'B' then smFind b.bids e.2.1
           else if e.2.2 = 'A' then smFind b.asks e.2.1 else none) with
    | some l => l.HasOrder e.1
    | none => false) &&
  b.bids.all (fun e => e.2.orders.all
    (fun o => decide (aFind b.order_lookup o.1 = some (e.1, 'B')))) &&
  b.asks.all (fun e => e.2.orders.all
    (fun o => decide (aFind b.order_lookup o.1 = some (e.1, 'A'))))

/-- The MBP output row (`MBPRecord`), restricted to the fields the core
computes; the ten bid/ask array slots are the list entries padded with
`CompactPriceLevel.mk0`. -/
structure MBPRecord where
  rtype : Nat
  action : Char
  side : Char
  depth : Nat
  price : Int
  size : Nat
  order_id : Nat
  bids : List CompactPriceLevel
  asks : List CompactPriceLevel
deriving Repr, DecidableEq

/-- Bid slot `i` of a row (array slot, defaulted like the C++ `fill`). -/
def MBPRecord.bidSlot (rec : MBPRecord) (i : Nat) : CompactPriceLevel :=
  rec.bids.getD i CompactPriceLevel.mk0

/-- Ask slot `i` of a row. -/
def MBPRecord.askSlot (rec : MBPRecord) (i : Nat) : CompactPriceLevel :=
  rec.asks.getD i CompactPriceLevel.mk0

/-- `MBPRecord::FromOrderBook`: echo the event metadata, set
`rtype = 10`, `depth = 1` for Cancel else `0`, copy up to ten levels. -/
def MBPRecord.FromOrderBook (r : MBORecord)
    (bids asks : List CompactPriceLevel) : MBPRecord :=
  { rtype := 10, action := r.action, side := r.side,
    depth := if r.action = 'C' then 1 else 0,
    price := r.price, size := r.size, order_id := r.order_id,
    bids := bids.take 10, asks := asks.take 10 }

/-- `MBOProcessor::ValidateMBPRecord` as a check: `true` iff the record
would pass without throwing. -/
def ValidateMBPRecordOk (rec : MBPRecord) : Bool :=
  rec.rtype == 10 && IsValidAction rec.action && IsValidSide rec.side &&
  (List.range 10).all (fun i =>
    (rec.bidSlot i).price == kUndefPrice ||
    ((rec.bidSlot i).size != 0 && (rec.bidSlot i).count != 0)) &&
  (List.range 10).all (fun i =>
    (rec.askSlot i).price == kUndefPrice ||
    ((rec.askSlot i).size != 0 && (rec.askSlot i).count != 0))

/-- Processor state: the book, the rows appended to the output, and the
two counters (`record_count_`, `mbp_record_count_`). -/
structure ProcState where
  book : OrderBook
  output : List MBPRecord
  record_count : Nat
  mbp_record_count : Nat
deriving Repr, DecidableEq

/-- The processor right after construction. -/
def ProcState.init : ProcState := ⟨OrderBook.init, [], 0, 0⟩

/-- `MBOProcessor::CreateMBPRecord`. -/
def CreateMBPRecord (b : OrderBook) (r : MBORecord) : MBPRecord :=
  MBPRecord.FromOrderBook r (b.GetTopBids 10) (b.GetTopAsks 10)

/-- `MBOProcessor::WriteMBPRecord` with output validation enabled (the
CLI configuration): validate, then append; a validation failure throws
before anything is written. -/
def WriteMBPRecord (s : ProcState) (rec : MBPRecord) : ProcState × Bool :=
  if ValidateMBPRecordOk rec then ({ s with output := s.output ++ [rec] }, false)
  else (s, true)

/-- `MBOProcessor::ProcessRecord`, including `HandleSpecialCase` for
Clear.  The returned `Bool` reports an escaped exception; the state
keeps all mutations committed before the throw. -/
def ProcessRecord (s : ProcState) (r : MBORecord) : ProcState × Bool :=
  if r.action = 'R' then
    let b1 := s.book.Clear
    let s1 : ProcState := { s with book := b1, record_count := s.record_count + 1 }
    let w := WriteMBPRecord s1 (CreateMBPRecord b1 r)
    if w.2 then (w.1, true)
    else ({ w.1 with mbp_record_count := w.1.mbp_record_count + 1 }, false)
  else
    let a := s.book.Apply r
    if a.2 then ({ s with book := a.1 }, true)
    else
      let s1 : ProcState := { s with book := a.1, record_count := s.record_count + 1 }
      if (r.action = 'A' ∨ r.action = 'C' ∨ r.action = 'T') ∧ a.1.has_changes = true then
        let w := WriteMBPRecord s1 (CreateMBPRecord a.1 r)
        if w.2 then (w.1, true)
        else ({ w.1 with book := { a.1 with has_changes := false },
                         mbp_record_count := w.1.mbp_record_count + 1 }, false)
      else (s1, false)

/-- The `ProcessFile` drive loop: exceptions from one record are caught
and the stream continues with the (possibly partially mutated) state. -/
def runTrace (s : ProcState) : List MBORecord → ProcState
  | [] => s
  | r :: rest => runTrace (ProcessRecord s r).1 rest

/-- Book states reachable from the fresh book by applying any sequence
of events (states left behind by a throwing `Apply` included, since the
drive loop catches the exception and continues). -/
inductive Reachable : OrderBook → Prop
  | base : Reachable OrderBook.init
  | step (b : OrderBook) (r : MBORecord) :
      Reachable b → Reachable (OrderBook.Apply b r).1

/-! ### Concrete events used in scenarios, counterexamples and witnesses -/

/-- `A,B,oid=1,p=10,sz=2`. -/
def rAdd1 : MBORecord := ⟨'A', 'B', 10, 2, 1⟩

/-- `A,B,oid=1,p=10,sz=3`: a duplicate Add for the same order id. -/
def rAdd1b : MBORecord := ⟨'A', 'B', 10, 3, 1⟩

/-- `C,B,oid=999,p=5,sz=1`: Cancel of an unknown order id. -/
def rCancelU : MBORecord := ⟨'C', 'B', 5, 1, 999⟩

/-- `M,N,oid=1,p=5,sz=1`: a Modify whose side is Neutral (valid per
`IsValidSide`) and whose price differs from the stored location. -/
def rModN : MBORecord := ⟨'M', 'N', 5, 1, 1⟩

/-- `C,B,oid=1,p=10,sz=2`: the Cancel matching `rAdd1`. -/
def rCancel1 : MBORecord := ⟨'C', 'B', 10, 2, 1⟩

/-- An `R` (Clear) event. -/
def rClear : MBORecord := ⟨'R', 'N', 0, 0, 0⟩

/-- `T,B,p=10,sz=1,oid=5`: a valid Trade event. -/
def rTrade : MBORecord := ⟨'T', 'B', 10, 1, 5⟩

/-- `A,B,oid=1,p=10,sz=3000000000`: a large but valid `uint32_t` size. -/
def rBig1 : MBORecord := ⟨'A', 'B', 10, 3000000000, 1⟩

/-- `A,B,oid=2,p=10,sz=3000000000`: a second large order at the same price. -/
def rBig2 : MBORecord := ⟨'A', 'B', 10, 3000000000, 2⟩

/-- The book after applying `rAdd1` to the fresh book. -/
def bookAdd1 : OrderBook := (OrderBook.Apply OrderBook.init rAdd1).1

/-- The state left behind when the Neutral-side Modify `rModN` throws
out of `bookAdd1` mid-way. -/
def bookCorrupt : OrderBook := (OrderBook.Apply bookAdd1 rModN).1

/-- The book holding two 3000000000-sized orders at price 10. -/
def bookBig : OrderBook := (OrderBook.Apply (OrderBook.Apply OrderBook.init rBig1).1 rBig2).1

/-! ### Stated properties -/

/-- Sum of the per-order sizes of a level's `orders` map, as an exact
natural number. -/
def sumSizes (m : List (Nat × Nat)) : Nat := (m.map (·.2)).sum

/-- The level-sum property exactly as claimed (exact equality, no
wrap-around): `total_size = Σ orders.values` and
`order_count = |orders|` for every level of the book. -/
def LevelSumExact (b : OrderBook) : Bool :=
  (b.bids ++ b.asks).all (fun e =>
    e.2.total_size == sumSizes e.2.orders && e.2.order_count == e.2.orders.length)

/-- Index coherence as claimed: every index entry points at a non-empty
level containing the order with positive size, and every order stored
in a level is indexed at that level's price and side. -/
def IndexCoherent (b : OrderBook) : Bool :=
  b.order_lookup.all (fun e =>
    match (if e.2.2 = 'B' then smFind b.bids e.2.1
           else if e.2.2 = 'A' then smFind b.asks e.2.1 else none) with
    | some l => !l.IsEmpty && ((aFind l.orders e.1).getD 0 != 0)
    | none => false) &&
  b.bids.all (fun e => e.2.orders.all
    (fun o => decide (aFind b.order_lookup o.1 = some (e.1, 'B')))) &&
  b.asks.all (fun e => e.2.orders.all
    (fun o => decide (aFind b.order_lookup o.1 = some (e.1, 'A'))))

/-- Well-formedness of one output row: a populated price slot carries a
strictly positive size and count. -/
def SlotsOk (rec : MBPRecord) : Prop :=
  ∀ i ∈ List.range 10,
    ((rec.bidSlot i).price ≠ kUndefPrice →
       (rec.bidSlot i).size ≠ 0 ∧ (rec.bidSlot i).count ≠ 0) ∧
    ((rec.askSlot i).price ≠ kUndefPrice →
       (rec.askSlot i).size ≠ 0 ∧ (rec.askSlot i).count ≠ 0)

/-! ### The machine-checked invariant of reachable books -/

/-- Well-formedness of one side-book entry `(key, level)` relative to
the order index `ol` and the side character `sideC`: the level's price
equals its map key and is a valid price, the `uint32_t` aggregates
equal the exact values reduced mod `2^32`, stored sizes are `uint32_t`
values, order ids within the level are distinct, and every stored order
is indexed at this key and side. -/
def PLwf (ol : List (Nat × Int × Char)) (sideC : Char) (e : Int × PriceLevel) : Prop :=
  e.2.price = e.1 ∧ IsValidPrice e.1 = true ∧
  e.2.total_size = sumSizes e.2.orders % U32 ∧
  e.2.order_count = e.2.orders.length % U32 ∧
  (∀ o ∈ e.2.orders, o.2 < U32) ∧
  (e.2.orders.map (·.1)).Nodup ∧
  (∀ o ∈ e.2.orders, aFind ol o.1 = some (e.1, sideC))

/-- A side book is sorted strictly by its comparator. -/
def SortedMap (lt : Int → Int → Bool) (m : SideMap) : Prop :=
  m.Pairwise (fun a b => lt a.1 b.1 = true)

/-- A comparator is a strict total order (what `std::map` requires):
transitive, total on distinct keys, asymmetric. -/
def LTok (lt : Int → Int → Bool) : Prop :=
  (∀ a b c, lt a b = true → lt b c = true → lt a c = true) ∧
  (∀ a b, a ≠ b → lt a b = true ∨ lt b a = true) ∧
  (∀ a b, lt a b = true → lt b a = false)

/-- Well-formedness of one side book. -/
def SideInv (lt : Int → Int → Bool) (sideC : Char)
    (ol : List (Nat × Int × Char)) (m : SideMap) : Prop :=
  SortedMap lt m ∧ ∀ e ∈ m, PLwf ol sideC e

/-- Well-formedness of the order index: distinct order ids, valid
stored prices, stored side is `'B'` or `'A'`. -/
def OLwf (ol : List (Nat × Int × Char)) : Prop :=
  (ol.map (·.1)).Nodup ∧
  ∀ e ∈ ol, IsValidPrice e.2.1 = true ∧ (e.2.2 = 'B' ∨ e.2.2 = 'A')

/-- The full book invariant maintained by `Apply`. -/
def Inv (b : OrderBook) : Prop :=
  SideInv bidLT 'B' b.order_lookup b.bids ∧
  SideInv askLT 'A' b.order_lookup b.asks ∧
  OLwf b.order_lookup

/-!
## Theorems

The claim theorems, their witnesses and counterexamples, and the
supporting lemmas.
-/

/-- C1 counterexample: the claim says a Cancel of an unknown order id
on an empty book emits one snapshot; the processor in fact emits none
(Cancel of an unknown id does not set the dirty flag), leaving the book
empty and the output empty. -/
theorem c1_counterexample :
    (runTrace ProcState.init [rCancelU]).output = [] ∧
    (runTrace ProcState.init [rCancelU]).output.length ≠ 1 ∧
    (runTrace ProcState.init [rCancelU]).book = OrderBook.init := by
  decide

/-- C2 counterexample: after a Clear (which emits unconditionally and
never resets the dirty flag), the very next Trade event finds the dirty
flag still set and emits a snapshot, so the output row sequence for the
trace `[Clear, Trade]` is one `R` row followed by one `T` row. -/
theorem c2_counterexample :
    (runTrace ProcState.init [rClear]).output.map (·.action) = ['R'] ∧
    (runTrace ProcState.init [rClear, rTrade]).output.map (·.action) = ['R', 'T'] := by
  decide

/-- C3: evaluation at the failing input.  With order 1 resting at
`(10, Bid)`, the Modify `rModN` (Neutral side, different price) passes
validation, takes the move branch, removes the order from its old level
and then throws from `GetOrCreateLevel`; the state left behind has an
empty bid book while the order index still maps 1 to `(10, 'B')` —
`apply` is not atomic. -/
theorem c3_nonatomic_eval :
    (OrderBook.Apply bookAdd1 rModN).2 = true ∧
    bookCorrupt.bids = [] ∧
    aFind bookCorrupt.order_lookup 1 = some (10, 'B') ∧
    bookCorrupt ≠ bookAdd1 := by
  decide

/-- C4: evaluation at the failing input.  The partially mutated state
left behind by the throwing Modify (which the drive loop catches,
continuing the stream) is reachable and violates index coherence: the
index maps order 1 to a bid level that no longer exists.  The book's
own `ValidateConsistency` agrees. -/
theorem c4_incoherent_eval :
    Reachable bookCorrupt ∧
    IndexCoherent bookCorrupt = false ∧
    OrderBook.ValidateConsistency bookCorrupt = false := by
  refine ⟨?_, by decide, by decide⟩
  exact Reachable.step bookAdd1 rModN (Reachable.step OrderBook.init rAdd1 Reachable.base)

/-- C6 counterexample: two valid `uint32_t` sizes of 3000000000 at the
same price level drive the exact sum to 6000000000, which overflows the
`uint32_t` field `total_size` (the code declares `Size total_size`, not
`u64`): the stored aggregate is `6000000000 % 2^32 = 1705032704`, so the
claimed exact equality `total_size = Σ orders.values` fails in a
reachable state. -/
theorem c6_counterexample :
    Reachable bookBig ∧ LevelSumExact bookBig = false ∧
    smFind bookBig.bids 10 =
      some ⟨10, 1705032704, 2, [(1, 3000000000), (2, 3000000000)]⟩ := by
  refine ⟨?_, by decide, by decide⟩
  exact Reachable.step _ rBig2 (Reachable.step _ rBig1 Reachable.base)

/-- C7 counterexample: the level-layer `AddOrder` does not reject a
duplicate order id.  On a level holding order 1 with size 2, adding
order 1 with size 3 overwrites the stored size, adds 3 to `total_size`
and increments `order_count` — the level is changed, contradicting the
claim that the duplicate is rejected with no change. -/
theorem c7_counterexample :
    PriceLevel.AddOrder ⟨10, 2, 1, [(1, 2)]⟩ 1 3 = ⟨10, 5, 2, [(1, 3)]⟩ ∧
    PriceLevel.AddOrder ⟨10, 2, 1, [(1, 2)]⟩ 1 3 ≠ ⟨10, 2, 1, [(1, 2)]⟩ := by
  decide


/-! ### Association-list lemmas -/

section AList

variable {α β : Type} [DecidableEq α]

theorem aFind_mem {m : List (α × β)} {k : α} {v : β}
    (h : aFind m k = some v) : (k, v) ∈ m := by
  induction m with
  | nil => simp [aFind] at h
  | cons e rest ih =>
      rw [List.mem_cons]
      by_cases he : e.1 = k
      · simp only [aFind, he, if_true, Option.some_inj] at h
        exact Or.inl (by rw [← he, ← h])
      · simp only [aFind, he, if_false] at h
        exact Or.inr (ih h)

theorem aFind_eq_none {m : List (α × β)} {k : α} :
    aFind m k = none ↔ ∀ e ∈ m, e.1 ≠ k := by
  induction m with
  | nil => simp [aFind]
  | cons e rest ih =>
      by_cases he : e.1 = k
      · simp [aFind, he]
      · simp [aFind, he, ih]

theorem mem_aFind {m : List (α × β)} {k : α} {v : β}
    (hnd : (m.map (·.1)).Nodup) (hm : (k, v) ∈ m) : aFind m k = some v := by
  induction m with
  | nil => simp at hm
  | cons e rest ih =>
      rw [List.map_cons, List.nodup_cons] at hnd
      rcases List.mem_cons.1 hm with hm | hm
      · rw [← hm]
        simp [aFind]
      · have hne : e.1 ≠ k := fun hk =>
          hnd.1 (hk ▸ List.mem_map.2 ⟨(k, v), hm, rfl⟩)
        simp only [aFind, hne, if_false]
        exact ih hnd.2 hm

theorem mem_aSet_elim {m : List (α × β)} {k : α} {v : β} {x : α × β}
    (h : x ∈ aSet m k v) : x = (k, v) ∨ x ∈ m := by
  induction m with
  | nil => simpa [aSet] using h
  | cons e rest ih =>
      by_cases he : e.1 = k
      · simp only [aSet, he, if_true] at h
        rcases List.mem_cons.1 h with h | h
        · exact Or.inl h
        · exact Or.inr (List.mem_cons.2 (Or.inr h))
      · simp only [aSet, he, if_false] at h
        rcases List.mem_cons.1 h with h | h
        · exact Or.inr (List.mem_cons.2 (Or.inl h))
        · rcases ih h with h | h
          · exact Or.inl h
          · exact Or.inr (List.mem_cons.2 (Or.inr h))

theorem aSet_forall {m : List (α × β)} {k : α} {v : β} {P : α × β → Prop}
    (hm : ∀ e ∈ m, P e) (hv : P (k, v)) : ∀ x ∈ aSet m k v, P x := by
  intro x hx
  rcases mem_aSet_elim hx with h | h
  · rw [h]; exact hv
  · exact hm x h

theorem aFind_aSet_self (m : List (α × β)) (k : α) (v : β) :
    aFind (aSet m k v) k = some v := by
  induction m with
  | nil => simp [aSet, aFind]
  | cons e rest ih =>
      by_cases he : e.1 = k
      · simp [aSet, he, aFind]
      · simp [aSet, he, aFind, ih]

theorem aFind_aSet_ne (m : List (α × β)) (k : α) (v : β) {q : α} (h : q ≠ k) :
    aFind (aSet m k v) q = aFind m q := by
  have hq : k ≠ q := fun hk => h hk.symm
  induction m with
  | nil => simp [aSet, aFind, hq]
  | cons e rest ih =>
      by_cases he : e.1 = k
      · simp [aSet, he, aFind, hq]
      · by_cases heq : e.1 = q
        · simp [aSet, he, aFind, heq, h]
        · simp [aSet, he, aFind, heq, h, ih]

theorem aErase_sublist (m : List (α × β)) (k : α) : (aErase m k).Sublist m := by
  induction m with
  | nil => simp [aErase]
  | cons e rest ih =>
      by_cases he : e.1 = k
      · simp only [aErase, he, if_true]
        exact ih.cons e
      · simp only [aErase, he, if_false]
        exact ih.cons₂ e

theorem aErase_sub {m : List (α × β)} {k : α} {x : α × β}
    (h : x ∈ aErase m k) : x ∈ m ∧ x.1 ≠ k := by
  induction m with
  | nil => simp [aErase] at h
  | cons e rest ih =>
      by_cases he : e.1 = k
      · simp only [aErase, he, if_true] at h
        exact ⟨List.mem_cons.2 (Or.inr (ih h).1), (ih h).2⟩
      · simp only [aErase, he, if_false] at h
        rcases List.mem_cons.1 h with h | h
        · exact ⟨List.mem_cons.2 (Or.inl h), by rw [h]; exact he⟩
        · exact ⟨List.mem_cons.2 (Or.inr (ih h).1), (ih h).2⟩

theorem aFind_aErase_ne (m : List (α × β)) (k : α) {q : α} (h : q ≠ k) :
    aFind (aErase m k) q = aFind m q := by
  have hq : k ≠ q := fun hk => h hk.symm
  induction m with
  | nil => rfl
  | cons e rest ih =>
      by_cases he : e.1 = k
      · have heq : e.1 ≠ q := by rw [he]; exact hq
        simp [aErase, he, aFind, heq, hq, ih]
      · by_cases heq : e.1 = q
        · simp [aErase, he, aFind, heq, h]
        · simp [aErase, he, aFind, heq, h, ih]

theorem aErase_eq_self {m : List (α × β)} {k : α}
    (h : ∀ e ∈ m, e.1 ≠ k) : aErase m k = m := by
  induction m with
  | nil => rfl
  | cons e rest ih =>
      have he : e.1 ≠ k := h e (List.mem_cons.2 (Or.inl rfl))
      simp only [aErase, he, if_false]
      exact congrArg (e :: ·) (ih fun x hx => h x (List.mem_cons.2 (Or.inr hx)))

theorem aErase_aSet {m : List (α × β)} {k : α} (v : β)
    (h : aFind m k = none) : aErase (aSet m k v) k = m := by
  induction m with
  | nil => simp [aSet, aErase]
  | cons e rest ih =>
      have hke : e.1 ≠ k := aFind_eq_none.1 h e (List.mem_cons.2 (Or.inl rfl))
      have hrest : aFind rest k = none :=
        aFind_eq_none.2 fun x hx => aFind_eq_none.1 h x (List.mem_cons.2 (Or.inr hx))
      simp only [aSet, hke, if_false, aErase]
      exact congrArg (e :: ·) (ih hrest)

theorem keys_aSet_none {m : List (α × β)} {k : α} (v : β)
    (h : aFind m k = none) :
    (aSet m k v).map (·.1) = m.map (·.1) ++ [k] := by
  induction m with
  | nil => simp [aSet]
  | cons e rest ih =>
      have hke : e.1 ≠ k := aFind_eq_none.1 h e (List.mem_cons.2 (Or.inl rfl))
      have hrest : aFind rest k = none :=
        aFind_eq_none.2 fun x hx => aFind_eq_none.1 h x (List.mem_cons.2 (Or.inr hx))
      simp only [aSet, hke, if_false, List.map_cons, List.cons_append]
      exact congrArg (e.1 :: ·) (ih hrest)

theorem keys_aSet_some {m : List (α × β)} {k : α} (v : β) {s : β}
    (h : aFind m k = some s) :
    (aSet m k v).map (·.1) = m.map (·.1) := by
  induction m with
  | nil => simp [aFind] at h
  | cons e rest ih =>
      by_cases he : e.1 = k
      · simp [aSet, he]
      · simp only [aFind, he, if_false] at h
        simp only [aSet, he, if_false, List.map_cons]
        exact congrArg (e.1 :: ·) (ih h)

theorem length_aSet_none {m : List (α × β)} {k : α} (v : β)
    (h : aFind m k = none) : (aSet m k v).length = m.length + 1 := by
  have := congrArg List.length (keys_aSet_none v h)
  simpa using this

theorem length_aSet_some {m : List (α × β)} {k : α} (v : β) {s : β}
    (h : aFind m k = some s) : (aSet m k v).length = m.length := by
  have := congrArg List.length (keys_aSet_some v h)
  simpa using this

theorem length_aErase {m : List (α × β)} {k : α} {s : β}
    (hnd : (m.map (·.1)).Nodup) (h : aFind m k = some s) :
    (aErase m k).length + 1 = m.length := by
  induction m with
  | nil => simp [aFind] at h
  | cons e rest ih =>
      rw [List.map_cons, List.nodup_cons] at hnd
      by_cases he : e.1 = k
      · have hne : ∀ x ∈ rest, x.1 ≠ k := fun x hx hk =>
          hnd.1 (he ▸ hk ▸ List.mem_map.2 ⟨x, hx, rfl⟩)
        simp only [aErase, he, if_true]
        rw [aErase_eq_self hne]
        simp
      · simp only [aFind, he, if_false] at h
        simp only [aErase, he, if_false, List.length_cons]
        rw [← ih hnd.2 h]

theorem nodup_keys_aSet {m : List (α × β)} {k : α} {v : β}
    (hnd : (m.map (·.1)).Nodup) : ((aSet m k v).map (·.1)).Nodup := by
  cases h : aFind m k with
  | none =>
      rw [keys_aSet_none v h]
      have hk : k ∉ m.map (·.1) := by
        intro hk
        rcases List.mem_map.1 hk with ⟨x, hx, hx1⟩
        exact aFind_eq_none.1 h x hx hx1
      simp [List.nodup_append, hnd, hk]
  | some s =>
      rw [keys_aSet_some v h]
      exact hnd

theorem nodup_keys_aErase {m : List (α × β)} {k : α}
    (hnd : (m.map (·.1)).Nodup) : ((aErase m k).map (·.1)).Nodup :=
  ((aErase_sublist m k).map (·.1)).nodup hnd

end AList

/-! ### Sum-of-sizes lemmas -/

theorem sumSizes_aSet_none {m : List (Nat × Nat)} {k v : Nat}
    (h : aFind m k = none) : sumSizes (aSet m k v) = sumSizes m + v := by
  induction m with
  | nil => simp [aSet, sumSizes]
  | cons e rest ih =>
      have hke : e.1 ≠ k := aFind_eq_none.1 h e (List.mem_cons.2 (Or.inl rfl))
      have hrest : aFind rest k = none :=
        aFind_eq_none.2 fun x hx => aFind_eq_none.1 h x (List.mem_cons.2 (Or.inr hx))
      simp only [aSet, hke, if_false, sumSizes, List.map_cons, List.sum_cons] at *
      rw [ih hrest]
      omega

theorem sumSizes_aSet_some {m : List (Nat × Nat)} {k v s : Nat}
    (h : aFind m k = some s) : sumSizes (aSet m k v) + s = sumSizes m + v := by
  induction m with
  | nil => simp [aFind] at h
  | cons e rest ih =>
      by_cases he : e.1 = k
      · simp only [aFind, he, if_true, Option.some_inj] at h
        simp only [aSet, he, if_true, sumSizes, List.map_cons, List.sum_cons]
        rw [h]
        omega
      · simp only [aFind, he, if_false] at h
        simp only [aSet, he, if_false, sumSizes, List.map_cons, List.sum_cons]
        have := ih h
        simp only [sumSizes] at this
        omega

theorem sumSizes_aErase {m : List (Nat × Nat)} {k s : Nat}
    (hnd : (m.map (·.1)).Nodup) (h : aFind m k = some s) :
    sumSizes (aErase m k) + s = sumSizes m := by
  induction m with
  | nil => simp [aFind] at h
  | cons e rest ih =>
      rw [List.map_cons, List.nodup_cons] at hnd
      by_cases he : e.1 = k
      · have hne : ∀ x ∈ rest, x.1 ≠ k := fun x hx hk =>
          hnd.1 (he ▸ hk ▸ List.mem_map.2 ⟨x, hx, rfl⟩)
        simp only [aFind, he, if_true, Option.some_inj] at h
        simp only [aErase, he, if_true]
        rw [aErase_eq_self hne]
        simp [sumSizes, ← h]
        omega
      · simp only [aFind, he, if_false] at h
        simp only [aErase, he, if_false, sumSizes, List.map_cons, List.sum_cons]
        have := ih hnd.2 h
        simp only [sumSizes] at this
        omega

/-! ### Sorted side-book lemmas -/

theorem bidLT_ok : LTok bidLT := by
  refine ⟨?_, ?_, ?_⟩
  · intro a b c hab hbc
    simp only [bidLT, decide_eq_true_eq] at *
    omega
  · intro a b hab
    simp only [bidLT, decide_eq_true_eq]
    omega
  · intro a b hab
    simp only [bidLT, decide_eq_true_eq] at hab
    simp only [bidLT, decide_eq_false_iff_not]
    omega

theorem askLT_ok : LTok askLT := by
  refine ⟨?_, ?_, ?_⟩
  · intro a b c hab hbc
    simp only [askLT, decide_eq_true_eq] at *
    omega
  · intro a b hab
    simp only [askLT, decide_eq_true_eq]
    omega
  · intro a b hab
    simp only [askLT, decide_eq_true_eq] at hab
    simp only [askLT, decide_eq_false_iff_not]
    omega

theorem lt_ne {lt : Int → Int → Bool} (hlt : LTok lt) {a b : Int}
    (h : lt a b = true) : a ≠ b := by
  intro hab
  subst hab
  have := hlt.2.2 a a h
  rw [this] at h
  exact Bool.false_ne_true h

theorem smUpsert_cons_hit {lt : Int → Int → Bool} {p : Int}
    {g : PriceLevel → PriceLevel} {e : Int × PriceLevel} {rest : SideMap}
    (he : e.1 = p) :
    smUpsert lt p g (e :: rest) = (p, g (fixPrice p e.2)) :: rest := by
  simp [smUpsert, he]

theorem smUpsert_cons_before {lt : Int → Int → Bool} {p : Int}
    {g : PriceLevel → PriceLevel} {e : Int × PriceLevel} {rest : SideMap}
    (he : e.1 ≠ p) (hl : lt p e.1 = true) :
    smUpsert lt p g (e :: rest) =
      (p, g (fixPrice p PriceLevel.mk0)) :: e :: rest := by
  simp [smUpsert, he, hl]

theorem smUpsert_cons_after {lt : Int → Int → Bool} {p : Int}
    {g : PriceLevel → PriceLevel} {e : Int × PriceLevel} {rest : SideMap}
    (he : e.1 ≠ p) (hl : lt p e.1 = false) :
    smUpsert lt p g (e :: rest) = e :: smUpsert lt p g rest := by
  simp [smUpsert, he, hl]

theorem mem_smUpsert_elim {lt : Int → Int → Bool} {p : Int}
    {g : PriceLevel → PriceLevel} {m : SideMap} {x : Int × PriceLevel}
    (h : x ∈ smUpsert lt p g m) :
    x ∈ m ∨ x = (p, g (fixPrice p PriceLevel.mk0)) ∨
      ∃ l, (p, l) ∈ m ∧ x = (p, g (fixPrice p l)) := by
  induction m with
  | nil => simpa [smUpsert] using h
  | cons e rest ih =>
      by_cases he : e.1 = p
      · rw [smUpsert_cons_hit he] at h
        rcases List.mem_cons.1 h with h | h
        · refine Or.inr (Or.inr ⟨e.2, List.mem_cons.2 (Or.inl ?_), h⟩)
          rw [← he]
        · exact Or.inl (List.mem_cons.2 (Or.inr h))
      · cases hl : lt p e.1 with
        | true =>
            rw [smUpsert_cons_before he hl] at h
            rcases List.mem_cons.1 h with h | h
            · exact Or.inr (Or.inl h)
            · exact Or.inl h
        | false =>
            rw [smUpsert_cons_after he hl] at h
            rcases List.mem_cons.1 h with h | h
            · exact Or.inl (List.mem_cons.2 (Or.inl h))
            · rcases ih h with h | h | ⟨l, hl2, hx⟩
              · exact Or.inl (List.mem_cons.2 (Or.inr h))
              · exact Or.inr (Or.inl h)
              · exact Or.inr (Or.inr ⟨l, List.mem_cons.2 (Or.inr hl2), hx⟩)

theorem smUpsert_forall {lt : Int → Int → Bool} {p : Int}
    {g : PriceLevel → PriceLevel} {m : SideMap} {P : Int × PriceLevel → Prop}
    (hm : ∀ e ∈ m, P e) (h0 : P (p, g (fixPrice p PriceLevel.mk0)))
    (h1 : ∀ l, (p, l) ∈ m → P (p, g (fixPrice p l))) :
    ∀ x ∈ smUpsert lt p g m, P x := by
  intro x hx
  rcases mem_smUpsert_elim hx with h | h | ⟨l, hl, hxl⟩
  · exact hm x h
  · rw [h]; exact h0
  · rw [hxl]; exact h1 l hl

theorem keys_smUpsert_sub {lt : Int → Int → Bool} {p : Int}
    {g : PriceLevel → PriceLevel} {m : SideMap} {x : Int × PriceLevel}
    (h : x ∈ smUpsert lt p g m) : x.1 = p ∨ x.1 ∈ m.map (·.1) := by
  rcases mem_smUpsert_elim h with h | h | ⟨l, _, hx⟩
  · exact Or.inr (List.mem_map.2 ⟨x, h, rfl⟩)
  · rw [h]; exact Or.inl rfl
  · rw [hx]; exact Or.inl rfl

theorem sorted_smUpsert {lt : Int → Int → Bool} (hlt : LTok lt) {p : Int}
    {g : PriceLevel → PriceLevel} {m : SideMap} (hs : SortedMap lt m) :
    SortedMap lt (smUpsert lt p g m) := by
  induction m with
  | nil => simp [smUpsert, SortedMap]
  | cons e rest ih =>
      rw [SortedMap, List.pairwise_cons] at hs
      by_cases he : e.1 = p
      · rw [smUpsert_cons_hit he, SortedMap, List.pairwise_cons]
        exact ⟨fun x hx => he ▸ hs.1 x hx, hs.2⟩
      · cases hl : lt p e.1 with
        | true =>
            rw [smUpsert_cons_before he hl, SortedMap, List.pairwise_cons]
            refine ⟨?_, ?_⟩
            · intro x hx
              rcases List.mem_cons.1 hx with hx | hx
              · rw [hx]; exact hl
              · exact hlt.1 p e.1 x.1 hl (hs.1 x hx)
            · rw [List.pairwise_cons]
              exact ⟨hs.1, hs.2⟩
        | false =>
            rw [smUpsert_cons_after he hl, SortedMap, List.pairwise_cons]
            refine ⟨?_, ih hs.2⟩
            intro x hx
            rcases keys_smUpsert_sub hx with hx1 | hx1
            · rw [hx1]
              rcases hlt.2.1 e.1 p he with h | h
              · exact h
              · rw [h] at hl; exact absurd hl (by simp)
            · rcases List.mem_map.1 hx1 with ⟨y, hy, hy1⟩
              rw [← hy1]
              exact hs.1 y hy

theorem nodup_keys_of_sorted {lt : Int → Int → Bool} (hlt : LTok lt)
    {m : SideMap} (hs : SortedMap lt m) : (m.map (·.1)).Nodup := by
  rw [List.Nodup, List.pairwise_map]
  exact hs.imp (fun h => lt_ne hlt h)

theorem smFind_smUpsert_none {lt : Int → Int → Bool} {p : Int}
    {g : PriceLevel → PriceLevel} {m : SideMap}
    (h : aFind m p = none) :
    aFind (smUpsert lt p g m) p = some (g (fixPrice p PriceLevel.mk0)) := by
  induction m with
  | nil => simp [smUpsert, aFind]
  | cons e rest ih =>
      have hke : e.1 ≠ p := aFind_eq_none.1 h e (List.mem_cons.2 (Or.inl rfl))
      have hrest : aFind rest p = none :=
        aFind_eq_none.2 fun x hx => aFind_eq_none.1 h x (List.mem_cons.2 (Or.inr hx))
      cases hl : lt p e.1 with
      | true => rw [smUpsert_cons_before hke hl]; simp [aFind]
      | false =>
          rw [smUpsert_cons_after hke hl]
          simp only [aFind, hke, if_false]
          exact ih hrest

theorem smErase_smUpsert_none {lt : Int → Int → Bool} {p : Int}
    {g : PriceLevel → PriceLevel} {m : SideMap}
    (h : aFind m p = none) :
    aErase (smUpsert lt p g m) p = m := by
  induction m with
  | nil => simp [smUpsert, aErase]
  | cons e rest ih =>
      have hke : e.1 ≠ p := aFind_eq_none.1 h e (List.mem_cons.2 (Or.inl rfl))
      have hrest : aFind rest p = none :=
        aFind_eq_none.2 fun x hx => aFind_eq_none.1 h x (List.mem_cons.2 (Or.inr hx))
      have hall : ∀ x ∈ (e :: rest), x.1 ≠ p :=
        fun x hx => aFind_eq_none.1 h x hx
      cases hl : lt p e.1 with
      | true =>
          rw [smUpsert_cons_before hke hl]
          show aErase ((p, g (fixPrice p PriceLevel.mk0)) :: e :: rest) p = e :: rest
          simp only [aErase, if_true]
          exact aErase_eq_self hall
      | false =>
          rw [smUpsert_cons_after hke hl]
          simp only [aErase, hke, if_false]
          exact congrArg (e :: ·) (ih hrest)

theorem smUpsert_some_self {lt : Int → Int → Bool} (hlt : LTok lt) {p : Int}
    {g : PriceLevel → PriceLevel} {m : SideMap} {l : PriceLevel}
    (hs : SortedMap lt m) (h : aFind m p = some l)
    (hg : g (fixPrice p l) = l) : smUpsert lt p g m = m := by
  induction m with
  | nil => simp [aFind] at h
  | cons e rest ih =>
      rw [SortedMap, List.pairwise_cons] at hs
      by_cases he : e.1 = p
      · simp only [aFind, he, if_true, Option.some_inj] at h
        rw [smUpsert_cons_hit he, h, hg, ← he, ← h]
      · simp only [aFind, he, if_false] at h
        have hmem : (p, l) ∈ rest := aFind_mem h
        have hlt2 : lt e.1 p = true := hs.1 (p, l) hmem
        have hl : lt p e.1 = false := hlt.2.2 e.1 p hlt2
        rw [smUpsert_cons_after he hl]
        exact congrArg (e :: ·) (ih hs.2 h)

theorem aFind_smUpsert_some {lt : Int → Int → Bool} (hlt : LTok lt) {p : Int}
    {g : PriceLevel → PriceLevel} {m : SideMap} {l : PriceLevel}
    (hs : SortedMap lt m) (h : aFind m p = some l) :
    aFind (smUpsert lt p g m) p = some (g (fixPrice p l)) := by
  induction m with
  | nil => simp [aFind] at h
  | cons e rest ih =>
      rw [SortedMap, List.pairwise_cons] at hs
      by_cases he : e.1 = p
      · simp only [aFind, he, if_true, Option.some_inj] at h
        rw [smUpsert_cons_hit he, h]
        simp [aFind]
      · simp only [aFind, he, if_false] at h
        have hmem : (p, l) ∈ rest := aFind_mem h
        have hlt2 : lt e.1 p = true := hs.1 (p, l) hmem
        have hl : lt p e.1 = false := hlt.2.2 e.1 p hlt2
        rw [smUpsert_cons_after he hl]
        simp only [aFind, he, if_false]
        exact ih hs.2 h

theorem smRemoveEmpty_none {p : Int} {m : SideMap}
    (hf : smFind m p = none) : smRemoveEmpty p m = m := by
  unfold smRemoveEmpty
  rw [hf]

theorem smRemoveEmpty_some_empty {p : Int} {m : SideMap} {l : PriceLevel}
    (hf : smFind m p = some l) (hl : l.IsEmpty = true) :
    smRemoveEmpty p m = smErase p m := by
  unfold smRemoveEmpty
  rw [hf]
  simp [hl]

theorem smRemoveEmpty_some_full {p : Int} {m : SideMap} {l : PriceLevel}
    (hf : smFind m p = some l) (hl : l.IsEmpty = false) :
    smRemoveEmpty p m = m := by
  unfold smRemoveEmpty
  rw [hf]
  simp [hl]

theorem mem_smRemoveEmpty_sub {p : Int} {m : SideMap} {x : Int × PriceLevel}
    (h : x ∈ smRemoveEmpty p m) : x ∈ m := by
  cases hf : smFind m p with
  | none => rw [smRemoveEmpty_none hf] at h; exact h
  | some l =>
      cases hl : l.IsEmpty with
      | true =>
          rw [smRemoveEmpty_some_empty hf hl] at h
          exact (aErase_sub h).1
      | false =>
          rw [smRemoveEmpty_some_full hf hl] at h
          exact h

theorem mem_smRemoveEmpty {p : Int} {m : SideMap} {x : Int × PriceLevel}
    (hnd : (m.map (·.1)).Nodup) (h : x ∈ smRemoveEmpty p m) :
    x ∈ m ∧ (x.1 = p → x.2.IsEmpty = false) := by
  refine ⟨mem_smRemoveEmpty_sub h, ?_⟩
  intro hxp
  cases hf : smFind m p with
  | none =>
      rw [smRemoveEmpty_none hf] at h
      have hx : aFind m x.1 = some x.2 := mem_aFind hnd h
      rw [hxp] at hx
      rw [smFind] at hf
      rw [hf] at hx
      exact absurd hx (by simp)
  | some l =>
      cases hl : l.IsEmpty with
      | true =>
          rw [smRemoveEmpty_some_empty hf hl] at h
          exact absurd hxp (aErase_sub h).2
      | false =>
          rw [smRemoveEmpty_some_full hf hl] at h
          have hx : aFind m x.1 = some x.2 := mem_aFind hnd h
          rw [hxp] at hx
          rw [smFind] at hf
          rw [hf, Option.some_inj] at hx
          rw [hx] at hl
          exact hl

theorem sorted_smRemoveEmpty {lt : Int → Int → Bool} {p : Int} {m : SideMap}
    (hs : SortedMap lt m) : SortedMap lt (smRemoveEmpty p m) := by
  cases hf : smFind m p with
  | none => rw [smRemoveEmpty_none hf]; exact hs
  | some l =>
      cases hl : l.IsEmpty with
      | true =>
          rw [smRemoveEmpty_some_empty hf hl]
          exact List.Pairwise.sublist (aErase_sublist m p) hs
      | false =>
          rw [smRemoveEmpty_some_full hf hl]
          exact hs

/-! ### Price-level well-formedness lemmas -/

theorem isValidPrice_ne {p : Int} (h : IsValidPrice p = true) :
    p ≠ kUndefPrice ∧ 0 < p := by
  simp only [IsValidPrice, Bool.and_eq_true, bne_iff_ne, ne_eq, decide_eq_true_eq] at h
  exact ⟨h.1, h.2⟩

theorem isEmpty_false {l : PriceLevel} :
    l.IsEmpty = false ↔ l.price ≠ kUndefPrice ∧ l.order_count ≠ 0 := by
  simp [PriceLevel.IsEmpty]

theorem isEmpty_true {l : PriceLevel} :
    l.IsEmpty = true ↔ l.price = kUndefPrice ∨ l.order_count = 0 := by
  simp [PriceLevel.IsEmpty]

theorem fixPrice_self {p : Int} {l : PriceLevel} (h : l.price = p)
    (hp : p ≠ kUndefPrice) : fixPrice p l = l := by
  rw [fixPrice, h, if_neg hp]

theorem fixPrice_mk0 (p : Int) : fixPrice p PriceLevel.mk0 = ⟨p, 0, 0, []⟩ := by
  simp [fixPrice, PriceLevel.mk0]

theorem U32_pos : 0 < U32 := by decide

theorem PLwf_relabel {ol ol' : List (Nat × Int × Char)} {σ : Char}
    {e : Int × PriceLevel} {oid : Nat}
    (hwf : PLwf ol σ e)
    (hno : ∀ o ∈ e.2.orders, o.1 ≠ oid)
    (hol : ∀ k, k ≠ oid → aFind ol' k = aFind ol k) :
    PLwf ol' σ e := by
  obtain ⟨hp, hv, ht, hc, hsz, hnd, hal⟩ := hwf
  refine ⟨hp, hv, ht, hc, hsz, hnd, ?_⟩
  intro o ho
  rw [hol o.1 (hno o ho)]
  exact hal o ho

theorem PLwf_empty_level {ol : List (Nat × Int × Char)} {σ : Char} {p : Int}
    (hvp : IsValidPrice p = true) :
    PLwf ol σ (p, (⟨p, 0, 0, []⟩ : PriceLevel)) := by
  refine ⟨rfl, hvp, rfl, rfl, ?_, ?_, ?_⟩ <;> simp [sumSizes]

theorem PLwf_addOrder {ol ol' : List (Nat × Int × Char)} {σ : Char}
    {p : Int} {l : PriceLevel} {oid sz : Nat}
    (hwf : PLwf ol σ (p, l))
    (hnew : aFind l.orders oid = none)
    (hol1 : aFind ol' oid = some (p, σ))
    (hol2 : ∀ k, k ≠ oid → aFind ol' k = aFind ol k) :
    PLwf ol' σ (p, l.AddOrder oid sz) := by
  obtain ⟨hp, hv, ht, hc, hsz, hnd, hal⟩ := hwf
  refine ⟨hp, hv, ?_, ?_, ?_, ?_, ?_⟩
  · show (l.total_size + sz) % U32 = sumSizes (aSet l.orders oid (sz % U32)) % U32
    rw [sumSizes_aSet_none hnew, ht]
    simp only [U32]
    omega
  · show (l.order_count + 1) % U32 = (aSet l.orders oid (sz % U32)).length % U32
    rw [length_aSet_none _ hnew, hc]
    simp only [U32]
    omega
  · exact aSet_forall hsz (Nat.mod_lt _ U32_pos)
  · show ((aSet l.orders oid (sz % U32)).map (·.1)).Nodup
    exact nodup_keys_aSet hnd
  · refine aSet_forall ?_ ?_
    · intro o ho
      rw [hol2 o.1 (aFind_eq_none.1 hnew o ho)]
      exact hal o ho
    · exact hol1

theorem PLwf_removeOrder {ol ol' : List (Nat × Int × Char)} {σ : Char}
    {p : Int} {l : PriceLevel} {oid : Nat}
    (hwf : PLwf ol σ (p, l))
    (hol : ∀ k, k ≠ oid → aFind ol' k = aFind ol k) :
    ((l.RemoveOrder oid).IsEmpty = true ∨ PLwf ol' σ (p, l.RemoveOrder oid)) ∧
    (∀ o ∈ (l.RemoveOrder oid).orders, o.1 ≠ oid) := by
  obtain ⟨hp, hv, ht, hc, hsz, hnd, hal⟩ := hwf
  cases hf : aFind l.orders oid with
  | none =>
      have hres : l.RemoveOrder oid = l := by
        rw [PriceLevel.RemoveOrder, hf]
      rw [hres]
      refine ⟨Or.inr ⟨hp, hv, ht, hc, hsz, hnd, ?_⟩, ?_⟩
      · intro o ho
        rw [hol o.1 (aFind_eq_none.1 hf o ho)]
        exact hal o ho
      · exact fun o ho => aFind_eq_none.1 hf o ho
  | some s =>
      have hmem : (oid, s) ∈ l.orders := aFind_mem hf
      have hslt : s < U32 := hsz (oid, s) hmem
      have hlen : 0 < l.orders.length := List.length_pos.2 (by
        intro hnil
        rw [hnil] at hmem
        simp at hmem)
      have hsum : sumSizes (aErase l.orders oid) + s = sumSizes l.orders :=
        sumSizes_aErase hnd hf
      have hlen2 : (aErase l.orders oid).length + 1 = l.orders.length :=
        length_aErase hnd hf
      by_cases hoc : (l.order_count + U32 - 1) % U32 = 0
      · have hres : l.RemoveOrder oid =
            { price := kUndefPrice, total_size := 0,
              order_count := (l.order_count + U32 - 1) % U32,
              orders := aErase l.orders oid } := by
          rw [PriceLevel.RemoveOrder, hf]
          simp [hoc]
        rw [hres]
        refine ⟨Or.inl ?_, ?_⟩
        · simp [PriceLevel.IsEmpty]
        · exact fun o ho => (aErase_sub ho).2
      · have hres : l.RemoveOrder oid =
            { l with total_size := (l.total_size + U32 - s) % U32,
                     order_count := (l.order_count + U32 - 1) % U32,
                     orders := aErase l.orders oid } := by
          rw [PriceLevel.RemoveOrder, hf]
          simp [hoc]
        rw [hres]
        refine ⟨Or.inr ⟨hp, hv, ?_, ?_, ?_, ?_, ?_⟩, ?_⟩
        · show (l.total_size + U32 - s) % U32 = sumSizes (aErase l.orders oid) % U32
          rw [ht]
          simp only [U32] at *
          omega
        · show (l.order_count + U32 - 1) % U32 = (aErase l.orders oid).length % U32
          rw [hc]
          simp only [U32] at *
          omega
        · exact fun o ho => hsz o (aErase_sub ho).1
        · exact nodup_keys_aErase hnd
        · intro o ho
          rw [hol o.1 (aErase_sub ho).2]
          exact hal o (aErase_sub ho).1
        · exact fun o ho => (aErase_sub ho).2

theorem PLwf_modifyOrder {ol : List (Nat × Int × Char)} {σ : Char}
    {p : Int} {l : PriceLevel} {oid ns : Nat}
    (hwf : PLwf ol σ (p, l)) :
    PLwf ol σ (p, l.ModifyOrder oid ns) := by
  obtain ⟨hp, hv, ht, hc, hsz, hnd, hal⟩ := hwf
  cases hf : aFind l.orders oid with
  | none =>
      have hres : l.ModifyOrder oid ns = l := by
        rw [PriceLevel.ModifyOrder, hf]
      rw [hres]
      exact ⟨hp, hv, ht, hc, hsz, hnd, hal⟩
  | some s =>
      have hmem : (oid, s) ∈ l.orders := aFind_mem hf
      have hslt : s < U32 := hsz (oid, s) hmem
      have hsum : sumSizes (aSet l.orders oid (ns % U32)) + s =
          sumSizes l.orders + ns % U32 := sumSizes_aSet_some hf
      have hres : l.ModifyOrder oid ns =
          { l with total_size := ((l.total_size + U32 - s) % U32 + ns) % U32,
                   orders := aSet l.orders oid (ns % U32) } := by
        rw [PriceLevel.ModifyOrder, hf]
      rw [hres]
      refine ⟨hp, hv, ?_, ?_, ?_, ?_, ?_⟩
      · show ((l.total_size + U32 - s) % U32 + ns) % U32 =
            sumSizes (aSet l.orders oid (ns % U32)) % U32
        rw [ht]
        simp only [U32] at *
        omega
      · show l.order_count = (aSet l.orders oid (ns % U32)).length % U32
        rw [length_aSet_some _ hf, hc]
      · exact aSet_forall hsz (Nat.mod_lt _ U32_pos)
      · exact nodup_keys_aSet hnd
      · refine aSet_forall hal ?_
        exact hal (oid, s) hmem

/-! ### Side-book invariant preservation -/

theorem notin_levels {σ : Char} {ol : List (Nat × Int × Char)} {m : SideMap}
    {oid : Nat} (hm : ∀ e ∈ m, PLwf ol σ e) (h : aFind ol oid = none) :
    ∀ e ∈ m, ∀ o ∈ e.2.orders, o.1 ≠ oid := by
  intro e he o ho hoe
  have := (hm e he).2.2.2.2.2.2 o ho
  rw [hoe, h] at this
  exact Option.noConfusion this

theorem levels_ne_oid {σ σ2 : Char} {ol : List (Nat × Int × Char)} {m : SideMap}
    {oid : Nat} {p : Int}
    (hm : ∀ e ∈ m, PLwf ol σ e) (hol : aFind ol oid = some (p, σ2))
    (hσ : σ2 ≠ σ) : ∀ e ∈ m, ∀ o ∈ e.2.orders, o.1 ≠ oid := by
  intro e he o ho hoe
  have := (hm e he).2.2.2.2.2.2 o ho
  rw [hoe, hol, Option.some_inj] at this
  exact hσ (congrArg Prod.snd this)

theorem sideInv_relabel {lt : Int → Int → Bool} {σ : Char}
    {ol ol' : List (Nat × Int × Char)} {m : SideMap} {oid : Nat}
    (hm : SideInv lt σ ol m)
    (hno : ∀ e ∈ m, ∀ o ∈ e.2.orders, o.1 ≠ oid)
    (hol : ∀ k, k ≠ oid → aFind ol' k = aFind ol k) :
    SideInv lt σ ol' m :=
  ⟨hm.1, fun e he => PLwf_relabel (hm.2 e he) (hno e he) hol⟩

theorem sideInv_add {lt : Int → Int → Bool} {σ : Char}
    {ol ol' : List (Nat × Int × Char)} {m : SideMap} {p : Int} {oid sz : Nat}
    (hlt : LTok lt) (hm : SideInv lt σ ol m)
    (hvp : IsValidPrice p = true)
    (hnotin : ∀ e ∈ m, ∀ o ∈ e.2.orders, o.1 ≠ oid)
    (hol1 : aFind ol' oid = some (p, σ))
    (hol2 : ∀ k, k ≠ oid → aFind ol' k = aFind ol k) :
    SideInv lt σ ol' (smUpsert lt p (fun l => l.AddOrder oid sz) m) := by
  refine ⟨sorted_smUpsert hlt hm.1, ?_⟩
  refine smUpsert_forall ?_ ?_ ?_
  · intro e he
    exact PLwf_relabel (hm.2 e he) (hnotin e he) hol2
  · rw [fixPrice_mk0]
    exact PLwf_addOrder (PLwf_empty_level hvp) (by rw [aFind]) hol1 hol2
  · intro l hl
    have hwf := hm.2 (p, l) hl
    rw [fixPrice_self hwf.1 (isValidPrice_ne hvp).1]
    refine PLwf_addOrder hwf ?_ hol1 hol2
    exact aFind_eq_none.2 fun o ho => hnotin (p, l) hl o ho

theorem sideInv_remove {lt : Int → Int → Bool} {σ σ2 : Char}
    {ol : List (Nat × Int × Char)} {m : SideMap} {p : Int} {oid : Nat}
    (hlt : LTok lt) (hm : SideInv lt σ ol m)
    (hvp : IsValidPrice p = true)
    (hol : aFind ol oid = some (p, σ2)) :
    SideInv lt σ ol (smRemoveEmpty p (smUpsert lt p (fun l => l.RemoveOrder oid) m)) ∧
    (∀ x ∈ smRemoveEmpty p (smUpsert lt p (fun l => l.RemoveOrder oid) m),
       ∀ o ∈ x.2.orders, o.1 ≠ oid) := by
  have hsorted : SortedMap lt (smUpsert lt p (fun l => l.RemoveOrder oid) m) :=
    sorted_smUpsert hlt hm.1
  have hnd : ((smUpsert lt p (fun l => l.RemoveOrder oid) m).map (·.1)).Nodup :=
    nodup_keys_of_sorted hlt hsorted
  have hkey : ∀ x ∈ smRemoveEmpty p (smUpsert lt p (fun l => l.RemoveOrder oid) m),
      PLwf ol σ x ∧ ∀ o ∈ x.2.orders, o.1 ≠ oid := by
    intro x hx
    obtain ⟨hxu, hxe⟩ := mem_smRemoveEmpty hnd hx
    by_cases hxp : x.1 = p
    · have hfind : aFind (smUpsert lt p (fun l => l.RemoveOrder oid) m) x.1 = some x.2 :=
        mem_aFind hnd hxu
      rw [hxp] at hfind
      cases hf : aFind m p with
      | none =>
          rw [smFind_smUpsert_none hf] at hfind
          rw [Option.some_inj] at hfind
          have hempty : (fixPrice p PriceLevel.mk0).RemoveOrder oid = ⟨p, 0, 0, []⟩ := by
            rw [fixPrice_mk0, PriceLevel.RemoveOrder]
            rw [show aFind ([] : List (Nat × Nat)) oid = none from rfl]
          rw [hempty] at hfind
          have : x.2.IsEmpty = true := by
            rw [← hfind]
            simp [PriceLevel.IsEmpty]
          rw [hxe hxp] at this
          exact Bool.noConfusion this
      | some l =>
          have hwf := hm.2 (p, l) (aFind_mem hf)
          rw [aFind_smUpsert_some hlt hm.1 hf] at hfind
          rw [fixPrice_self hwf.1 (isValidPrice_ne hvp).1, Option.some_inj] at hfind
          obtain ⟨hdisj, hno⟩ :=
            @PLwf_removeOrder ol ol σ p l oid hwf (fun k _ => rfl)
          rcases hdisj with hemp | hwf2
          · rw [hfind] at hemp
            rw [hxe hxp] at hemp
            exact Bool.noConfusion hemp
          · refine ⟨?_, ?_⟩
            · have : x = (p, l.RemoveOrder oid) := by
                rw [Prod.ext_iff]
                exact ⟨hxp, hfind.symm⟩
              rw [this]
              exact hwf2
            · intro o ho
              refine hno o ?_
              rw [hfind]
              exact ho
    · have hxm : x ∈ m := by
        rcases mem_smUpsert_elim hxu with h | h | ⟨l, _, h⟩
        · exact h
        · rw [h] at hxp; exact absurd rfl hxp
        · rw [h] at hxp; exact absurd rfl hxp
      refine ⟨hm.2 x hxm, ?_⟩
      intro o ho hoe
      have := (hm.2 x hxm).2.2.2.2.2.2 o ho
      rw [hoe, hol, Option.some_inj] at this
      exact hxp (by rw [← congrArg Prod.fst this])
  refine ⟨⟨?_, fun x hx => (hkey x hx).1⟩, fun x hx => (hkey x hx).2⟩
  exact sorted_smRemoveEmpty hsorted

theorem sideInv_modify {lt : Int → Int → Bool} {σ : Char}
    {ol : List (Nat × Int × Char)} {m : SideMap} {p : Int} {oid ns : Nat}
    (hlt : LTok lt) (hm : SideInv lt σ ol m)
    (hvp : IsValidPrice p = true) :
    SideInv lt σ ol (smUpsert lt p (fun l => l.ModifyOrder oid ns) m) := by
  refine ⟨sorted_smUpsert hlt hm.1, ?_⟩
  refine smUpsert_forall hm.2 ?_ ?_
  · rw [fixPrice_mk0]
    have : (⟨p, 0, 0, []⟩ : PriceLevel).ModifyOrder oid ns = ⟨p, 0, 0, []⟩ := by
      rw [PriceLevel.ModifyOrder]
      rw [show aFind ([] : List (Nat × Nat)) oid = none from rfl]
    rw [this]
    exact PLwf_empty_level hvp
  · intro l hl
    have hwf := hm.2 (p, l) hl
    rw [fixPrice_self hwf.1 (isValidPrice_ne hvp).1]
    exact PLwf_modifyOrder hwf

/-! ### Branch equations for the book operations -/

theorem isValid_fields {r : MBORecord} (h : r.IsValid = true) (ha : r.action ≠ 'R') :
    IsValidSide r.side = true ∧ IsValidPrice r.price = true ∧
      IsValidSize r.size = true := by
  simp only [MBORecord.IsValid, Bool.and_eq_true, Bool.or_eq_true, beq_iff_eq] at h
  obtain ⟨⟨⟨_, hs⟩, hp⟩, hsz⟩ := h
  rcases hp with hp | hp
  · exact absurd hp ha
  rcases hsz with hsz | hsz
  · exact absurd hsz ha
  exact ⟨hs, hp, hsz⟩

theorem addOrder_dup {b : OrderBook} {r : MBORecord} {v : Int × Char}
    (hf : aFind b.order_lookup r.order_id = some v) :
    b.AddOrder r = (b, true) := by
  rw [OrderBook.AddOrder, hf]
  rfl

theorem addOrder_B {b : OrderBook} {r : MBORecord}
    (hf : aFind b.order_lookup r.order_id = none) (hs : r.side = 'B') :
    b.AddOrder r =
      ({ b with bids := smUpsert bidLT r.price (fun l => l.AddOrder r.order_id r.size) b.bids,
                order_lookup := aSet b.order_lookup r.order_id (r.price, r.side),
                has_changes := true }, false) := by
  rw [OrderBook.AddOrder, hf]
  simp [hs]

theorem addOrder_A {b : OrderBook} {r : MBORecord}
    (hf : aFind b.order_lookup r.order_id = none) (hs : r.side = 'A') :
    b.AddOrder r =
      ({ b with asks := smUpsert askLT r.price (fun l => l.AddOrder r.order_id r.size) b.asks,
                order_lookup := aSet b.order_lookup r.order_id (r.price, r.side),
                has_changes := true }, false) := by
  rw [OrderBook.AddOrder, hf]
  simp [hs]

theorem addOrder_badside {b : OrderBook} {r : MBORecord}
    (hf : aFind b.order_lookup r.order_id = none)
    (h1 : r.side ≠ 'B') (h2 : r.side ≠ 'A') :
    b.AddOrder r = (b, true) := by
  rw [OrderBook.AddOrder, hf]
  simp [h1, h2]

theorem cancelOrder_none {b : OrderBook} {r : MBORecord}
    (hf : aFind b.order_lookup r.order_id = none) :
    b.CancelOrder r = (b, false) := by
  rw [OrderBook.CancelOrder, hf]

theorem cancelOrder_some_B {b : OrderBook} {r : MBORecord} {p : Int}
    (hf : aFind b.order_lookup r.order_id = some (p, 'B')) :
    b.CancelOrder r =
      ({ b with bids := smRemoveEmpty p (smUpsert bidLT p (fun l => l.RemoveOrder r.order_id) b.bids),
                order_lookup := aErase b.order_lookup r.order_id,
                has_changes := true }, false) := by
  rw [OrderBook.CancelOrder, hf]
  simp

theorem cancelOrder_some_A {b : OrderBook} {r : MBORecord} {p : Int}
    (hf : aFind b.order_lookup r.order_id = some (p, 'A')) :
    b.CancelOrder r =
      ({ b with asks := smRemoveEmpty p (smUpsert askLT p (fun l => l.RemoveOrder r.order_id) b.asks),
                order_lookup := aErase b.order_lookup r.order_id,
                has_changes := true }, false) := by
  rw [OrderBook.CancelOrder, hf]
  simp

theorem modifyOrder_absent {b : OrderBook} {r : MBORecord}
    (hf : aFind b.order_lookup r.order_id = none) :
    b.ModifyOrder r = b.AddOrder r := by
  rw [OrderBook.ModifyOrder, hf]

theorem modifyOrder_move_B {b : OrderBook} {r : MBORecord} {op : Int} {os : Char}
    (hf : aFind b.order_lookup r.order_id = some (op, os))
    (hne : op ≠ r.price ∨ os ≠ r.side) (hos : os = 'B') :
    b.ModifyOrder r =
      OrderBook.moveAdd
        { b with bids := smRemoveEmpty op (smUpsert bidLT op (fun l => l.RemoveOrder r.order_id) b.bids) } r := by
  rw [OrderBook.ModifyOrder, hf]
  simp only [ne_eq]
  rw [if_pos (by simpa using hne)]
  simp [hos]

theorem modifyOrder_move_A {b : OrderBook} {r : MBORecord} {op : Int} {os : Char}
    (hf : aFind b.order_lookup r.order_id = some (op, os))
    (hne : op ≠ r.price ∨ os ≠ r.side) (hos : os = 'A') :
    b.ModifyOrder r =
      OrderBook.moveAdd
        { b with asks := smRemoveEmpty op (smUpsert askLT op (fun l => l.RemoveOrder r.order_id) b.asks) } r := by
  rw [OrderBook.ModifyOrder, hf]
  simp only [ne_eq]
  rw [if_pos (by simpa using hne)]
  simp [hos]

theorem modifyOrder_same_B {b : OrderBook} {r : MBORecord} {op : Int} {os : Char}
    (hf : aFind b.order_lookup r.order_id = some (op, os))
    (hop : op = r.price) (hos : os = r.side) (hsB : r.side = 'B') :
    b.ModifyOrder r =
      ({ b with bids := smUpsert bidLT r.price (fun l => l.ModifyOrder r.order_id r.size) b.bids,
                has_changes := true }, false) := by
  rw [OrderBook.ModifyOrder, hf]
  simp only [ne_eq]
  rw [if_neg (by simp [hop, hos])]
  simp [hsB]

theorem modifyOrder_same_A {b : OrderBook} {r : MBORecord} {op : Int} {os : Char}
    (hf : aFind b.order_lookup r.order_id = some (op, os))
    (hop : op = r.price) (hos : os = r.side) (hsA : r.side = 'A') :
    b.ModifyOrder r =
      ({ b with asks := smUpsert askLT r.price (fun l => l.ModifyOrder r.order_id r.size) b.asks,
                has_changes := true }, false) := by
  rw [OrderBook.ModifyOrder, hf]
  simp only [ne_eq]
  rw [if_neg (by simp [hop, hos])]
  simp [hsA]

theorem moveAdd_B {b1 : OrderBook} {r : MBORecord} (hs : r.side = 'B') :
    b1.moveAdd r =
      ({ b1 with bids := smUpsert bidLT r.price (fun l => l.AddOrder r.order_id r.size) b1.bids,
                 order_lookup := aSet b1.order_lookup r.order_id (r.price, r.side),
                 has_changes := true }, false) := by
  rw [OrderBook.moveAdd]
  simp [hs]

theorem moveAdd_A {b1 : OrderBook} {r : MBORecord} (hs : r.side = 'A') :
    b1.moveAdd r =
      ({ b1 with asks := smUpsert askLT r.price (fun l => l.AddOrder r.order_id r.size) b1.asks,
                 order_lookup := aSet b1.order_lookup r.order_id (r.price, r.side),
                 has_changes := true }, false) := by
  rw [OrderBook.moveAdd]
  simp [hs]

theorem moveAdd_badside {b1 : OrderBook} {r : MBORecord}
    (h1 : r.side ≠ 'B') (h2 : r.side ≠ 'A') :
    b1.moveAdd r = (b1, true) := by
  rw [OrderBook.moveAdd]
  simp [h1, h2]

theorem apply_invalid {b : OrderBook} {r : MBORecord} (h : r.IsValid = false) :
    OrderBook.Apply b r = (b, true) := by
  rw [OrderBook.Apply, h]
  rfl

theorem apply_A {b : OrderBook} {r : MBORecord} (h : r.IsValid = true)
    (ha : r.action = 'A') : OrderBook.Apply b r = b.AddOrder r := by
  rw [OrderBook.Apply, h]
  simp [ha]

theorem apply_C {b : OrderBook} {r : MBORecord} (h : r.IsValid = true)
    (ha : r.action = 'C') : OrderBook.Apply b r = b.CancelOrder r := by
  rw [OrderBook.Apply, h]
  simp [ha]

theorem apply_M {b : OrderBook} {r : MBORecord} (h : r.IsValid = true)
    (ha : r.action = 'M') : OrderBook.Apply b r = b.ModifyOrder r := by
  rw [OrderBook.Apply, h]
  simp [ha]

theorem apply_R {b : OrderBook} {r : MBORecord} (h : r.IsValid = true)
    (ha : r.action = 'R') : OrderBook.Apply b r = (b.Clear, false) := by
  rw [OrderBook.Apply, h]
  simp [ha]

theorem apply_nop {b : OrderBook} {r : MBORecord} (h : r.IsValid = true)
    (ha : r.action = 'T' ∨ r.action = 'F' ∨ r.action = 'N') :
    OrderBook.Apply b r = (b, false) := by
  rw [OrderBook.Apply, h]
  rcases ha with ha | ha | ha <;> simp [ha]

/-! ### Invariant preservation through `Apply` -/

theorem inv_init : Inv OrderBook.init := by
  refine ⟨⟨?_, ?_⟩, ⟨?_, ?_⟩, ?_, ?_⟩ <;> simp [SortedMap, OrderBook.init]

theorem inv_clear (b : OrderBook) : Inv b.Clear := by
  refine ⟨⟨?_, ?_⟩, ⟨?_, ?_⟩, ?_, ?_⟩ <;> simp [SortedMap, OrderBook.Clear]

theorem inv_addOrder {b : OrderBook} {r : MBORecord} (h : Inv b)
    (hvp : IsValidPrice r.price = true) : Inv (b.AddOrder r).1 := by
  obtain ⟨hB, hA, hol⟩ := h
  cases hf : aFind b.order_lookup r.order_id with
  | some v =>
      rw [addOrder_dup hf]
      exact ⟨hB, hA, hol⟩
  | none =>
      by_cases hsB : r.side = 'B'
      · rw [addOrder_B hf hsB]
        refine ⟨?_, ?_, ?_, ?_⟩
        · refine sideInv_add bidLT_ok hB hvp (notin_levels hB.2 hf) ?_ ?_
          · rw [hsB, aFind_aSet_self]
          · exact fun k hk => aFind_aSet_ne _ _ _ hk
        · exact sideInv_relabel hA (notin_levels hA.2 hf)
            (fun k hk => aFind_aSet_ne _ _ _ hk)
        · exact nodup_keys_aSet hol.1
        · exact aSet_forall hol.2 ⟨hvp, Or.inl hsB⟩
      · by_cases hsA : r.side = 'A'
        · rw [addOrder_A hf hsA]
          refine ⟨?_, ?_, ?_, ?_⟩
          · exact sideInv_relabel hB (notin_levels hB.2 hf)
              (fun k hk => aFind_aSet_ne _ _ _ hk)
          · refine sideInv_add askLT_ok hA hvp (notin_levels hA.2 hf) ?_ ?_
            · rw [hsA, aFind_aSet_self]
            · exact fun k hk => aFind_aSet_ne _ _ _ hk
          · exact nodup_keys_aSet hol.1
          · exact aSet_forall hol.2 ⟨hvp, Or.inr hsA⟩
        · rw [addOrder_badside hf hsB hsA]
          exact ⟨hB, hA, hol⟩

theorem inv_cancelOrder {b : OrderBook} {r : MBORecord} (h : Inv b) :
    Inv (b.CancelOrder r).1 := by
  obtain ⟨hB, hA, hol⟩ := h
  cases hf : aFind b.order_lookup r.order_id with
  | none =>
      rw [cancelOrder_none hf]
      exact ⟨hB, hA, hol⟩
  | some ps =>
      obtain ⟨p, s⟩ := ps
      have hent : IsValidPrice p = true ∧ (s = 'B' ∨ s = 'A') :=
        hol.2 (r.order_id, p, s) (aFind_mem hf)
      have hvp : IsValidPrice p = true := hent.1
      rcases hent.2 with hsB | hsA
      · subst hsB
        rw [cancelOrder_some_B hf]
        obtain ⟨hBrem, hBno⟩ := sideInv_remove bidLT_ok hB hvp hf
        refine ⟨?_, ?_, ?_, ?_⟩
        · exact sideInv_relabel hBrem hBno (fun k hk => aFind_aErase_ne _ _ hk)
        · refine sideInv_relabel hA
            (levels_ne_oid hA.2 hf (by decide)) (fun k hk => aFind_aErase_ne _ _ hk)
        · exact nodup_keys_aErase hol.1
        · exact fun e he => hol.2 e (aErase_sub he).1
      · subst hsA
        rw [cancelOrder_some_A hf]
        obtain ⟨hArem, hAno⟩ := sideInv_remove askLT_ok hA hvp hf
        refine ⟨?_, ?_, ?_, ?_⟩
        · refine sideInv_relabel hB
            (levels_ne_oid hB.2 hf (by decide)) (fun k hk => aFind_aErase_ne _ _ hk)
        · exact sideInv_relabel hArem hAno (fun k hk => aFind_aErase_ne _ _ hk)
        · exact nodup_keys_aErase hol.1
        · exact fun e he => hol.2 e (aErase_sub he).1

theorem inv_moveAdd {b1 : OrderBook} {r : MBORecord} (h : Inv b1)
    (hvp : IsValidPrice r.price = true)
    (hnoB : ∀ e ∈ b1.bids, ∀ o ∈ e.2.orders, o.1 ≠ r.order_id)
    (hnoA : ∀ e ∈ b1.asks, ∀ o ∈ e.2.orders, o.1 ≠ r.order_id) :
    Inv (b1.moveAdd r).1 := by
  obtain ⟨hB, hA, hol⟩ := h
  by_cases hsB : r.side = 'B'
  · rw [moveAdd_B hsB]
    refine ⟨?_, ?_, ?_, ?_⟩
    · refine sideInv_add bidLT_ok hB hvp hnoB ?_ ?_
      · rw [hsB, aFind_aSet_self]
      · exact fun k hk => aFind_aSet_ne _ _ _ hk
    · exact sideInv_relabel hA hnoA (fun k hk => aFind_aSet_ne _ _ _ hk)
    · exact nodup_keys_aSet hol.1
    · exact aSet_forall hol.2 ⟨hvp, Or.inl hsB⟩
  · by_cases hsA : r.side = 'A'
    · rw [moveAdd_A hsA]
      refine ⟨?_, ?_, ?_, ?_⟩
      · exact sideInv_relabel hB hnoB (fun k hk => aFind_aSet_ne _ _ _ hk)
      · refine sideInv_add askLT_ok hA hvp hnoA ?_ ?_
        · rw [hsA, aFind_aSet_self]
        · exact fun k hk => aFind_aSet_ne _ _ _ hk
      · exact nodup_keys_aSet hol.1
      · exact aSet_forall hol.2 ⟨hvp, Or.inr hsA⟩
    · rw [moveAdd_badside hsB hsA]
      exact ⟨hB, hA, hol⟩

theorem inv_modifyOrder {b : OrderBook} {r : MBORecord} (h : Inv b)
    (hvp : IsValidPrice r.price = true) : Inv (b.ModifyOrder r).1 := by
  obtain ⟨hB, hA, hol⟩ := h
  cases hf : aFind b.order_lookup r.order_id with
  | none =>
      rw [modifyOrder_absent hf]
      exact inv_addOrder ⟨hB, hA, hol⟩ hvp
  | some ps =>
      obtain ⟨op, os⟩ := ps
      have hent : IsValidPrice op = true ∧ (os = 'B' ∨ os = 'A') :=
        hol.2 (r.order_id, op, os) (aFind_mem hf)
      have hop : IsValidPrice op = true := hent.1
      by_cases hbr : op ≠ r.price ∨ os ≠ r.side
      · rcases hent.2 with hosB | hosA
        · rw [modifyOrder_move_B hf hbr hosB]
          obtain ⟨hBrem, hBno⟩ := sideInv_remove bidLT_ok hB hop hf
          refine inv_moveAdd ⟨hBrem, hA, hol⟩ hvp hBno ?_
          exact levels_ne_oid hA.2 hf (by rw [hosB]; decide)
        · rw [modifyOrder_move_A hf hbr hosA]
          obtain ⟨hArem, hAno⟩ := sideInv_remove askLT_ok hA hop hf
          refine inv_moveAdd ⟨hB, hArem, hol⟩ hvp ?_ hAno
          exact levels_ne_oid hB.2 hf (by rw [hosA]; decide)
      · push_neg at hbr
        obtain ⟨hbp, hbs⟩ := hbr
        rcases hent.2 with hosB | hosA
        · rw [modifyOrder_same_B hf hbp hbs (hbs.symm.trans hosB)]
          exact ⟨sideInv_modify bidLT_ok hB hvp, hA, hol⟩
        · rw [modifyOrder_same_A hf hbp hbs (hbs.symm.trans hosA)]
          exact ⟨hB, sideInv_modify askLT_ok hA hvp, hol⟩

theorem inv_apply {b : OrderBook} (r : MBORecord) (h : Inv b) :
    Inv (OrderBook.Apply b r).1 := by
  cases hval : r.IsValid with
  | false =>
      rw [apply_invalid hval]
      exact h
  | true =>
      by_cases hA : r.action = 'A'
      · rw [apply_A hval hA]
        exact inv_addOrder h (isValid_fields hval (by rw [hA]; decide)).2.1
      · by_cases hC : r.action = 'C'
        · rw [apply_C hval hC]
          exact inv_cancelOrder h
        · by_cases hM : r.action = 'M'
          · rw [apply_M hval hM]
            exact inv_modifyOrder h (isValid_fields hval (by rw [hM]; decide)).2.1
          · by_cases hR : r.action = 'R'
            · rw [apply_R hval hR]
              exact inv_clear b
            · have hrest : r.action = 'T' ∨ r.action = 'F' ∨ r.action = 'N' := by
                have hact : IsValidAction r.action = true := by
                  have := hval
                  simp only [MBORecord.IsValid, Bool.and_eq_true] at this
                  exact this.1.1.1
                simp only [IsValidAction, Bool.or_eq_true, beq_iff_eq] at hact
                tauto
              rw [apply_nop hval hrest]
              exact h

/-- Every reachable book state satisfies the machine-checked invariant. -/
theorem reachable_inv {b : OrderBook} (h : Reachable b) : Inv b := by
  induction h with
  | base => exact inv_init
  | step b r _ ih => exact inv_apply r ih

/-! ### Processor branch equations -/

theorem write_ok {s : ProcState} {rec : MBPRecord}
    (h : ValidateMBPRecordOk rec = true) :
    WriteMBPRecord s rec = ({ s with output := s.output ++ [rec] }, false) := by
  rw [WriteMBPRecord]
  simp [h]

theorem write_fail {s : ProcState} {rec : MBPRecord}
    (h : ValidateMBPRecordOk rec = false) :
    WriteMBPRecord s rec = (s, true) := by
  rw [WriteMBPRecord]
  simp [h]

theorem processRecord_R_ok {s : ProcState} {r : MBORecord} (hr : r.action = 'R')
    (hw : ValidateMBPRecordOk (CreateMBPRecord s.book.Clear r) = true) :
    ProcessRecord s r =
      ({ book := s.book.Clear,
         output := s.output ++ [CreateMBPRecord s.book.Clear r],
         record_count := s.record_count + 1,
         mbp_record_count := s.mbp_record_count + 1 }, false) := by
  simp [ProcessRecord, hr, write_ok hw]

theorem processRecord_R_fail {s : ProcState} {r : MBORecord} (hr : r.action = 'R')
    (hw : ValidateMBPRecordOk (CreateMBPRecord s.book.Clear r) = false) :
    ProcessRecord s r =
      ({ s with book := s.book.Clear, record_count := s.record_count + 1 }, true) := by
  simp [ProcessRecord, hr, write_fail hw]

theorem processRecord_throw {s : ProcState} {r : MBORecord} {bb : OrderBook}
    (hr : r.action ≠ 'R') (hap : s.book.Apply r = (bb, true)) :
    ProcessRecord s r = ({ s with book := bb }, true) := by
  simp [ProcessRecord, hr, hap]

theorem processRecord_quiet {s : ProcState} {r : MBORecord} {bb : OrderBook}
    (hr : r.action ≠ 'R') (hap : s.book.Apply r = (bb, false))
    (hg : ¬((r.action = 'A' ∨ r.action = 'C' ∨ r.action = 'T') ∧
            bb.has_changes = true)) :
    ProcessRecord s r =
      ({ s with book := bb, record_count := s.record_count + 1 }, false) := by
  simp only [ProcessRecord, if_neg hr, hap, if_neg hg, Bool.false_eq_true, if_false]

theorem processRecord_emit {s : ProcState} {r : MBORecord} {bb : OrderBook}
    (hr : r.action ≠ 'R') (hap : s.book.Apply r = (bb, false))
    (hg : (r.action = 'A' ∨ r.action = 'C' ∨ r.action = 'T') ∧
          bb.has_changes = true)
    (hw : ValidateMBPRecordOk (CreateMBPRecord bb r) = true) :
    ProcessRecord s r =
      ({ book := { bb with has_changes := false },
         output := s.output ++ [CreateMBPRecord bb r],
         record_count := s.record_count + 1,
         mbp_record_count := s.mbp_record_count + 1 }, false) := by
  simp only [ProcessRecord, if_neg hr, hap, if_pos hg, write_ok hw,
    Bool.false_eq_true, if_false, if_true]

theorem processRecord_emit_fail {s : ProcState} {r : MBORecord} {bb : OrderBook}
    (hr : r.action ≠ 'R') (hap : s.book.Apply r = (bb, false))
    (hg : (r.action = 'A' ∨ r.action = 'C' ∨ r.action = 'T') ∧
          bb.has_changes = true)
    (hw : ValidateMBPRecordOk (CreateMBPRecord bb r) = false) :
    ProcessRecord s r =
      ({ s with book := bb, record_count := s.record_count + 1 }, true) := by
  simp only [ProcessRecord, if_neg hr, hap, if_pos hg, write_fail hw,
    Bool.false_eq_true, if_false, if_true]

/-- The output either stays put or grows by exactly one validated row. -/
theorem processRecord_output (s : ProcState) (r : MBORecord) :
    (ProcessRecord s r).1.output = s.output ∨
    ∃ rec, ValidateMBPRecordOk rec = true ∧
      (ProcessRecord s r).1.output = s.output ++ [rec] := by
  by_cases hr : r.action = 'R'
  · cases hw : ValidateMBPRecordOk (CreateMBPRecord s.book.Clear r) with
    | true =>
        rw [processRecord_R_ok hr hw]
        exact Or.inr ⟨_, hw, rfl⟩
    | false =>
        rw [processRecord_R_fail hr hw]
        exact Or.inl rfl
  · cases hap : s.book.Apply r with
    | mk bb th =>
        cases th with
        | true =>
            rw [processRecord_throw hr hap]
            exact Or.inl rfl
        | false =>
            by_cases hg : (r.action = 'A' ∨ r.action = 'C' ∨ r.action = 'T') ∧
                bb.has_changes = true
            · cases hw : ValidateMBPRecordOk (CreateMBPRecord bb r) with
              | true =>
                  rw [processRecord_emit hr hap hg hw]
                  exact Or.inr ⟨_, hw, rfl⟩
              | false =>
                  rw [processRecord_emit_fail hr hap hg hw]
                  exact Or.inl rfl
            · rw [processRecord_quiet hr hap hg]
              exact Or.inl rfl

/-- An event whose apply leaves the book object unchanged can only touch
the processor state by emitting (and then clearing the dirty flag); with
the dirty flag clear it changes neither the book nor the output. -/
theorem processRecord_nomut {s : ProcState} {r : MBORecord} (hr : r.action ≠ 'R')
    (hap : (s.book.Apply r).1 = s.book) :
    (ProcessRecord s r).1.book.bids = s.book.bids ∧
    (ProcessRecord s r).1.book.asks = s.book.asks ∧
    (ProcessRecord s r).1.book.order_lookup = s.book.order_lookup ∧
    (s.book.has_changes = false →
       (ProcessRecord s r).1.book = s.book ∧ (ProcessRecord s r).1.output = s.output) := by
  rcases hx : s.book.Apply r with ⟨bb, th⟩
  rw [hx] at hap
  subst hap
  cases th with
  | true =>
      rw [processRecord_throw hr hx]
      exact ⟨rfl, rfl, rfl, fun _ => ⟨rfl, rfl⟩⟩
  | false =>
      cases hc : s.book.has_changes with
      | false =>
          have hg : ¬((r.action = 'A' ∨ r.action = 'C' ∨ r.action = 'T') ∧
              s.book.has_changes = true) := by
            simp [hc]
          rw [processRecord_quiet hr hx hg]
          exact ⟨rfl, rfl, rfl, fun _ => ⟨rfl, rfl⟩⟩
      | true =>
          by_cases hga : r.action = 'A' ∨ r.action = 'C' ∨ r.action = 'T'
          · cases hw : ValidateMBPRecordOk (CreateMBPRecord s.book r) with
            | true =>
                rw [processRecord_emit hr hx ⟨hga, hc⟩ hw]
                exact ⟨rfl, rfl, rfl, fun hfalse => Bool.noConfusion hfalse⟩
            | false =>
                rw [processRecord_emit_fail hr hx ⟨hga, hc⟩ hw]
                exact ⟨rfl, rfl, rfl, fun hfalse => Bool.noConfusion hfalse⟩
          · have hg : ¬((r.action = 'A' ∨ r.action = 'C' ∨ r.action = 'T') ∧
                s.book.has_changes = true) := fun hcon => hga hcon.1
            rw [processRecord_quiet hr hx hg]
            exact ⟨rfl, rfl, rfl, fun _ => ⟨rfl, rfl⟩⟩

/-- C1 (amended): a Cancel whose order id is absent from the index
silently succeeds — no throw, the book's side books, index and dirty
flag are unchanged — and because the dirty flag is not set, the
processor emits a snapshot for it only if the flag was already set by
an earlier event; with the flag clear (e.g. a fresh empty book) it
emits nothing. -/
theorem c1_cancel_unknown (s : ProcState) (r : MBORecord)
    (h1 : r.action = 'C')
    (h2 : aFind s.book.order_lookup r.order_id = none) :
    (ProcessRecord s r).1.book.bids = s.book.bids ∧
    (ProcessRecord s r).1.book.asks = s.book.asks ∧
    (ProcessRecord s r).1.book.order_lookup = s.book.order_lookup ∧
    (s.book.has_changes = false →
       (ProcessRecord s r).1.book = s.book ∧
       (ProcessRecord s r).1.output = s.output) := by
  have hr : r.action ≠ 'R' := by rw [h1]; decide
  refine processRecord_nomut hr ?_
  cases hval : r.IsValid with
  | false => rw [apply_invalid hval]
  | true => rw [apply_C hval h1, cancelOrder_none h2]

/-- C1 witness: on the fresh processor, the unknown-oid Cancel leaves
the book empty and produces no output row. -/
theorem c1_cancel_unknown_witness :
    rCancelU.action = 'C' ∧
    aFind ProcState.init.book.order_lookup rCancelU.order_id = none ∧
    (ProcessRecord ProcState.init rCancelU).1.book = ProcState.init.book ∧
    (ProcessRecord ProcState.init rCancelU).1.output = ProcState.init.output := by
  refine ⟨rfl, rfl, ?_⟩
  have h := c1_cancel_unknown ProcState.init rCancelU rfl rfl
  exact h.2.2.2 rfl

/-- C2 (amended): a Trade event applies as a no-op — it never mutates
the side books or the index and never sets the dirty flag — so it can
emit a snapshot only when the dirty flag was already set on arrival
(left there by a Modify or a Clear); with the flag clear, a Trade
changes neither the book nor the output. -/
theorem c2_trade_gating (s : ProcState) (r : MBORecord)
    (h1 : r.action = 'T') :
    (ProcessRecord s r).1.book.bids = s.book.bids ∧
    (ProcessRecord s r).1.book.asks = s.book.asks ∧
    (ProcessRecord s r).1.book.order_lookup = s.book.order_lookup ∧
    (s.book.has_changes = false →
       (ProcessRecord s r).1.book = s.book ∧
       (ProcessRecord s r).1.output = s.output) := by
  have hr : r.action ≠ 'R' := by rw [h1]; decide
  refine processRecord_nomut hr ?_
  cases hval : r.IsValid with
  | false => rw [apply_invalid hval]
  | true => rw [apply_nop hval (Or.inl h1)]

/-- C2 witness: a Trade arriving at a clean (fresh) processor emits
nothing and leaves the state untouched. -/
theorem c2_trade_gating_witness :
    rTrade.action = 'T' ∧
    (ProcessRecord ProcState.init rTrade).1.book = ProcState.init.book ∧
    (ProcessRecord ProcState.init rTrade).1.output = ProcState.init.output := by
  refine ⟨rfl, ?_⟩
  have h := c2_trade_gating ProcState.init rTrade rfl
  exact h.2.2.2 rfl

/-- C5: an Add whose order id is already in the index throws a
duplicate-order error out of `apply` before any mutation; the processor
skips the event entirely (book, output and counters unchanged) and the
stream continues.  Concretely, after `A,B,1,10,2` then `A,B,1,10,3`
exactly one snapshot has been emitted and the level at price 10 holds
`total_size = 2`, `order_count = 1`. -/
theorem c5_duplicate_add :
    (∀ (s : ProcState) (r : MBORecord), r.action = 'A' →
       (aFind s.book.order_lookup r.order_id).isSome = true →
       ProcessRecord s r = (s, true)) ∧
    (runTrace ProcState.init [rAdd1, rAdd1b]).output.length = 1 ∧
    smFind (runTrace ProcState.init [rAdd1, rAdd1b]).book.bids 10 =
      some ⟨10, 2, 1, [(1, 2)]⟩ := by
  refine ⟨?_, by decide, by decide⟩
  intro s r ha hdup
  have hr : r.action ≠ 'R' := by rw [ha]; decide
  have hap : s.book.Apply r = (s.book, true) := by
    cases hval : r.IsValid with
    | false => exact apply_invalid hval
    | true =>
        rw [apply_A hval ha]
        cases hfind : aFind s.book.order_lookup r.order_id with
        | none => rw [hfind] at hdup; simp at hdup
        | some v => exact addOrder_dup hfind
  rw [processRecord_throw hr hap]

/-- C5 witness: the second Add of order 1 is rejected and leaves the
processor state exactly as it was. -/
theorem c5_duplicate_add_witness :
    rAdd1b.action = 'A' ∧
    (aFind (runTrace ProcState.init [rAdd1]).book.order_lookup
       rAdd1b.order_id).isSome = true ∧
    ProcessRecord (runTrace ProcState.init [rAdd1]) rAdd1b =
      (runTrace ProcState.init [rAdd1], true) :=
  ⟨rfl, by decide, c5_duplicate_add.1 (runTrace ProcState.init [rAdd1]) rAdd1b rfl (by decide)⟩

/-- C6 (amended): in every reachable book state, every price level in
either side book satisfies `total_size = (Σ orders.values) mod 2^32`
and `order_count = |orders| mod 2^32` — the aggregates are the
`uint32_t` reductions of the exact values, not exact `u64` sums. -/
theorem c6_level_sum_mod {b : OrderBook} (h : Reachable b) :
    ∀ e ∈ b.bids ++ b.asks,
      e.2.total_size = sumSizes e.2.orders % U32 ∧
      e.2.order_count = e.2.orders.length % U32 := by
  obtain ⟨hB, hA, _⟩ := reachable_inv h
  intro e he
  rcases List.mem_append.1 he with he | he
  · exact ⟨(hB.2 e he).2.2.1, (hB.2 e he).2.2.2.1⟩
  · exact ⟨(hA.2 e he).2.2.1, (hA.2 e he).2.2.2.1⟩

/-- C6 witness: the modular level-sum property, evaluated on the
reachable book holding order 1 at price 10. -/
theorem c6_level_sum_mod_witness :
    Reachable bookAdd1 ∧
    (∀ e ∈ bookAdd1.bids ++ bookAdd1.asks,
       e.2.total_size = sumSizes e.2.orders % U32 ∧
       e.2.order_count = e.2.orders.length % U32) := by
  have hb : Reachable bookAdd1 := Reachable.step OrderBook.init rAdd1 Reachable.base
  exact ⟨hb, c6_level_sum_mod hb⟩

/-- Every row a trace ever appends to the output passed validation. -/
theorem runTrace_output_validated {s : ProcState}
    (hs : ∀ rec ∈ s.output, ValidateMBPRecordOk rec = true) :
    ∀ tr : List MBORecord, ∀ rec ∈ (runTrace s tr).output,
      ValidateMBPRecordOk rec = true := by
  intro tr
  induction tr generalizing s with
  | nil => simpa [runTrace] using hs
  | cons r rest ih =>
      rw [runTrace]
      refine ih ?_
      rcases processRecord_output s r with h | ⟨rec, hrec, h⟩
      · rw [h]; exact hs
      · rw [h]
        intro x hx
        rcases List.mem_append.1 hx with hx | hx
        · exact hs x hx
        · rw [List.mem_singleton.1 hx]
          exact hrec

theorem validate_slotsOk {rec : MBPRecord}
    (h : ValidateMBPRecordOk rec = true) : SlotsOk rec := by
  simp only [ValidateMBPRecordOk, Bool.and_eq_true, List.all_eq_true] at h
  obtain ⟨⟨⟨⟨_, _⟩, _⟩, hbid⟩, hask⟩ := h
  intro i hi
  have hb := hbid i hi
  have ha := hask i hi
  simp only [Bool.or_eq_true, beq_iff_eq, Bool.and_eq_true, bne_iff_ne] at hb ha
  constructor
  · intro hp
    rcases hb with hb | hb
    · exact absurd hb hp
    · exact hb
  · intro hp
    rcases ha with ha | ha
    · exact absurd ha hp
    · exact ha

/-- C10: with output validation enabled (as the CLI configures), every
snapshot row the processor ever appends to the output is well-formed —
a populated bid or ask slot always carries a strictly positive size and
count — and any candidate row violating this is rejected (the write
throws) before anything is appended. -/
theorem c10_output_wellformed :
    (∀ (tr : List MBORecord) (rec : MBPRecord),
       rec ∈ (runTrace ProcState.init tr).output → SlotsOk rec) ∧
    (∀ (s : ProcState) (rec : MBPRecord), ValidateMBPRecordOk rec = false →
       WriteMBPRecord s rec = (s, true)) := by
  constructor
  · intro tr rec hmem
    refine validate_slotsOk ?_
    refine runTrace_output_validated ?_ tr rec hmem
    intro x hx
    simp [ProcState.init] at hx
  · intro s rec h
    exact write_fail h

/-- C10 witness: the row emitted for the first Add is in the output and
satisfies the slot well-formedness property. -/
theorem c10_output_wellformed_witness :
    (⟨10, 'A', 'B', 0, 10, 2, 1, [⟨10, 2, 1⟩], []⟩ : MBPRecord) ∈
      (runTrace ProcState.init [rAdd1]).output ∧
    SlotsOk ⟨10, 'A', 'B', 0, 10, 2, 1, [⟨10, 2, 1⟩], []⟩ :=
  ⟨by decide, c10_output_wellformed.1 [rAdd1] _ (by decide)⟩

/-! ### Top-of-book ordering and the single-order round trip -/

theorem topLevels_eq (k : Nat) (m : SideMap) :
    topLevels k m =
      ((m.filter (fun e => !e.2.IsEmpty)).take k).map
        (fun e => CompactPriceLevel.ofLevel e.2) := by
  induction m generalizing k with
  | nil => simp [topLevels]
  | cons e rest ih =>
      cases k with
      | zero => simp [topLevels]
      | succ n =>
          cases hemp : e.2.IsEmpty with
          | true => simp [topLevels, hemp, ih]
          | false => simp [topLevels, hemp, ih]

/-- C9: in every reachable book state, the top-k queries return exactly
the first k non-empty levels of the (sorted) side books; the yielded
bid prices are strictly decreasing and the ask prices strictly
increasing; every yielded level is non-empty (defined price, non-zero
order count). -/
theorem c9_top_ordering {b : OrderBook} (h : Reachable b) (k : Nat) :
    b.GetTopBids k =
      ((b.bids.filter (fun e => !e.2.IsEmpty)).take k).map
        (fun e => CompactPriceLevel.ofLevel e.2) ∧
    b.GetTopAsks k =
      ((b.asks.filter (fun e => !e.2.IsEmpty)).take k).map
        (fun e => CompactPriceLevel.ofLevel e.2) ∧
    ((b.GetTopBids k).map (·.price)).Pairwise (· > ·) ∧
    ((b.GetTopAsks k).map (·.price)).Pairwise (· < ·) ∧
    (∀ c ∈ b.GetTopBids k, c.price ≠ kUndefPrice ∧ c.count ≠ 0) ∧
    (∀ c ∈ b.GetTopAsks k, c.price ≠ kUndefPrice ∧ c.count ≠ 0) := by
  obtain ⟨hB, hA, _⟩ := reachable_inv h
  have hsubB : ((b.bids.filter (fun e => !e.2.IsEmpty)).take k).Sublist b.bids :=
    (List.take_sublist _ _).trans (List.filter_sublist _)
  have hsubA : ((b.asks.filter (fun e => !e.2.IsEmpty)).take k).Sublist b.asks :=
    (List.take_sublist _ _).trans (List.filter_sublist _)
  refine ⟨topLevels_eq k b.bids, topLevels_eq k b.asks, ?_, ?_, ?_, ?_⟩
  · rw [OrderBook.GetTopBids, topLevels_eq, List.map_map, List.pairwise_map]
    have hpw := hB.1.sublist hsubB
    refine hpw.imp_of_mem ?_
    intro a c ha hc hr
    have hpa := (hB.2 a (hsubB.subset ha)).1
    have hpc := (hB.2 c (hsubB.subset hc)).1
    simp only [bidLT, decide_eq_true_eq] at hr
    show (CompactPriceLevel.ofLevel a.2).price > (CompactPriceLevel.ofLevel c.2).price
    show a.2.price > c.2.price
    rw [hpa, hpc]
    exact hr
  · rw [OrderBook.GetTopAsks, topLevels_eq, List.map_map, List.pairwise_map]
    have hpw := hA.1.sublist hsubA
    refine hpw.imp_of_mem ?_
    intro a c ha hc hr
    have hpa := (hA.2 a (hsubA.subset ha)).1
    have hpc := (hA.2 c (hsubA.subset hc)).1
    simp only [askLT, decide_eq_true_eq] at hr
    show (CompactPriceLevel.ofLevel a.2).price < (CompactPriceLevel.ofLevel c.2).price
    show a.2.price < c.2.price
    rw [hpa, hpc]
    exact hr
  · intro c hc
    rw [OrderBook.GetTopBids, topLevels_eq] at hc
    obtain ⟨e, he, rfl⟩ := List.mem_map.1 hc
    have he2 := (List.take_sublist _ _).subset he
    have := List.mem_filter.1 he2
    have hemp : e.2.IsEmpty = false := by simpa using this.2
    exact isEmpty_false.1 hemp
  · intro c hc
    rw [OrderBook.GetTopAsks, topLevels_eq] at hc
    obtain ⟨e, he, rfl⟩ := List.mem_map.1 hc
    have he2 := (List.take_sublist _ _).subset he
    have := List.mem_filter.1 he2
    have hemp : e.2.IsEmpty = false := by simpa using this.2
    exact isEmpty_false.1 hemp

/-- C9 witness: the ordering properties instantiated on the reachable
one-order book, with the full depth of ten. -/
theorem c9_top_ordering_witness :
    Reachable bookAdd1 ∧
    (bookAdd1.GetTopBids 10 =
      ((bookAdd1.bids.filter (fun e => !e.2.IsEmpty)).take 10).map
        (fun e => CompactPriceLevel.ofLevel e.2) ∧
     bookAdd1.GetTopAsks 10 =
      ((bookAdd1.asks.filter (fun e => !e.2.IsEmpty)).take 10).map
        (fun e => CompactPriceLevel.ofLevel e.2) ∧
     ((bookAdd1.GetTopBids 10).map (·.price)).Pairwise (· > ·) ∧
     ((bookAdd1.GetTopAsks 10).map (·.price)).Pairwise (· < ·) ∧
     (∀ c ∈ bookAdd1.GetTopBids 10, c.price ≠ kUndefPrice ∧ c.count ≠ 0) ∧
     (∀ c ∈ bookAdd1.GetTopAsks 10, c.price ≠ kUndefPrice ∧ c.count ≠ 0)) := by
  have hb : Reachable bookAdd1 := Reachable.step OrderBook.init rAdd1 Reachable.base
  exact ⟨hb, c9_top_ordering hb 10⟩

theorem smUpsert_smUpsert (lt : Int → Int → Bool) (p : Int)
    (g1 g2 : PriceLevel → PriceLevel) (m : SideMap) :
    smUpsert lt p g2 (smUpsert lt p g1 m) =
      smUpsert lt p (fun l => g2 (fixPrice p (g1 l))) m := by
  induction m with
  | nil =>
      show smUpsert lt p g2 [(p, g1 (fixPrice p PriceLevel.mk0))] = _
      rw [smUpsert_cons_hit (e := (p, g1 (fixPrice p PriceLevel.mk0))) rfl]
      rfl
  | cons e rest ih =>
      by_cases he : e.1 = p
      · rw [smUpsert_cons_hit he,
            smUpsert_cons_hit (e := (p, g1 (fixPrice p e.2))) rfl,
            smUpsert_cons_hit he]
      · cases hl : lt p e.1 with
        | true =>
            rw [smUpsert_cons_before he hl,
                smUpsert_cons_hit (e := (p, g1 (fixPrice p PriceLevel.mk0))) rfl,
                smUpsert_cons_before he hl]
        | false =>
            rw [smUpsert_cons_after he hl, smUpsert_cons_after he hl,
                smUpsert_cons_after he hl]
            exact congrArg (e :: ·) ih

theorem side_roundtrip {lt : Int → Int → Bool} {σ : Char}
    {ol : List (Nat × Int × Char)} {m : SideMap} {p : Int} {oid sz : Nat}
    (hlt : LTok lt) (hm : SideInv lt σ ol m)
    (hvp : IsValidPrice p = true)
    (hf : aFind ol oid = none)
    (hne : ∀ e ∈ m, e.2.IsEmpty = false) :
    smRemoveEmpty p (smUpsert lt p (fun l => l.RemoveOrder oid)
      (smUpsert lt p (fun l => l.AddOrder oid sz) m)) = m := by
  have hpne : p ≠ kUndefPrice := (isValidPrice_ne hvp).1
  rw [smUpsert_smUpsert]
  cases hfm : aFind m p with
  | none =>
      have h1 : (⟨p, 0, 0, []⟩ : PriceLevel).AddOrder oid sz =
          ⟨p, sz % U32, 1, [(oid, sz % U32)]⟩ := by
        rw [PriceLevel.AddOrder]
        simp [aSet, Nat.zero_add, show (1 : Nat) % U32 = 1 from by decide]
      have h3 : (⟨p, sz % U32, 1, [(oid, sz % U32)]⟩ : PriceLevel).RemoveOrder oid =
          ⟨kUndefPrice, 0, 0, []⟩ := by
        rw [PriceLevel.RemoveOrder]
        have hfo : aFind [(oid, sz % U32)] oid = some (sz % U32) := by
          simp [aFind]
        rw [hfo]
        have hoc : (1 + U32 - 1) % U32 = 0 := by simp [U32]
        simp [hoc, aErase]
      have hcomp : (fixPrice p ((fixPrice p PriceLevel.mk0).AddOrder oid sz)).RemoveOrder oid =
          (⟨kUndefPrice, 0, 0, []⟩ : PriceLevel) := by
        rw [fixPrice_mk0, h1,
            fixPrice_self (l := ⟨p, sz % U32, 1, [(oid, sz % U32)]⟩) rfl hpne, h3]
      have hfind : aFind (smUpsert lt p
            (fun l => (fixPrice p (l.AddOrder oid sz)).RemoveOrder oid) m) p =
          some (⟨kUndefPrice, 0, 0, []⟩ : PriceLevel) := by
        rw [smFind_smUpsert_none hfm]
        exact congrArg some hcomp
      rw [smRemoveEmpty_some_empty hfind (by simp [PriceLevel.IsEmpty])]
      exact smErase_smUpsert_none hfm
  | some l =>
      have hmem : (p, l) ∈ m := aFind_mem hfm
      obtain ⟨hp0, hv0, ht0, hc0, hsz0, hnd0, hal0⟩ := hm.2 (p, l) hmem
      have hp : l.price = p := hp0
      have ht : l.total_size = sumSizes l.orders % U32 := ht0
      have hc : l.order_count = l.orders.length % U32 := hc0
      have hal : ∀ o ∈ l.orders, aFind ol o.1 = some (p, σ) := hal0
      have hnoid : aFind l.orders oid = none := by
        refine aFind_eq_none.2 fun o ho hoe => ?_
        have := hal o ho
        rw [hoe, hf] at this
        exact Option.noConfusion this
      have hcnt : l.order_count ≠ 0 := (isEmpty_false.1 (hne (p, l) hmem)).2
      have hcltU : l.order_count < U32 := by rw [hc]; exact Nat.mod_lt _ U32_pos
      have htltU : l.total_size < U32 := by rw [ht]; exact Nat.mod_lt _ U32_pos
      have hfo : aFind (aSet l.orders oid (sz % U32)) oid = some (sz % U32) :=
        aFind_aSet_self _ _ _
      have hoc : ((l.order_count + 1) % U32 + U32 - 1) % U32 = l.order_count := by
        simp only [U32] at *
        omega
      have hocne : ¬(((l.order_count + 1) % U32 + U32 - 1) % U32 = 0) := by
        rw [hoc]
        exact hcnt
      have hts : ((l.total_size + sz) % U32 + U32 - sz % U32) % U32 =
          l.total_size := by
        simp only [U32] at *
        omega
      have hres : (⟨l.price, (l.total_size + sz) % U32, (l.order_count + 1) % U32,
            aSet l.orders oid (sz % U32)⟩ : PriceLevel).RemoveOrder oid =
          ⟨l.price, l.total_size, l.order_count, l.orders⟩ := by
        rw [PriceLevel.RemoveOrder, hfo]
        simp only [hocne, if_false]
        rw [aErase_aSet _ hnoid]
        simp [hoc, hts]
      have hstep : (fun lv => (fixPrice p (lv.AddOrder oid sz)).RemoveOrder oid)
          (fixPrice p l) = l := by
        show (fixPrice p ((fixPrice p l).AddOrder oid sz)).RemoveOrder oid = l
        rw [fixPrice_self (l := l) hp hpne]
        have hl1 : l.AddOrder oid sz =
            ⟨l.price, (l.total_size + sz) % U32, (l.order_count + 1) % U32,
             aSet l.orders oid (sz % U32)⟩ := rfl
        rw [hl1,
            fixPrice_self (l := ⟨l.price, (l.total_size + sz) % U32,
              (l.order_count + 1) % U32, aSet l.orders oid (sz % U32)⟩) hp hpne,
            hres]
      rw [smUpsert_some_self hlt hm.1 hfm hstep]
      exact smRemoveEmpty_some_full hfm (hne (p, l) hmem)

/-- C8: starting from any well-formed book whose levels are all
non-empty and whose index does not contain `oid`, applying a valid
`Add{oid, p, s, sz}` and then a valid `Cancel` for the same `oid`
restores both side books and the order index exactly. -/
theorem c8_roundtrip (b : OrderBook) (r1 r2 : MBORecord)
    (hInv : Inv b)
    (hneB : ∀ e ∈ b.bids, e.2.IsEmpty = false)
    (hneA : ∀ e ∈ b.asks, e.2.IsEmpty = false)
    (habs : aFind b.order_lookup r1.order_id = none)
    (ha1 : r1.action = 'A') (hv1 : r1.IsValid = true)
    (hside : r1.side = 'B' ∨ r1.side = 'A')
    (ha2 : r2.action = 'C') (hv2 : r2.IsValid = true)
    (hid : r2.order_id = r1.order_id) :
    (OrderBook.Apply (OrderBook.Apply b r1).1 r2).1.bids = b.bids ∧
    (OrderBook.Apply (OrderBook.Apply b r1).1 r2).1.asks = b.asks ∧
    (OrderBook.Apply (OrderBook.Apply b r1).1 r2).1.order_lookup = b.order_lookup := by
  have hvp : IsValidPrice r1.price = true :=
    (isValid_fields hv1 (by rw [ha1]; decide)).2.1
  rcases hside with hs | hs
  · rw [apply_A hv1 ha1, addOrder_B habs hs, apply_C hv2 ha2]
    rw [cancelOrder_some_B (p := r1.price) (by simp [hid, hs, aFind_aSet_self])]
    refine ⟨?_, rfl, ?_⟩
    · rw [hid]
      exact side_roundtrip bidLT_ok hInv.1 hvp habs hneB
    · rw [hid]
      exact aErase_aSet _ habs
  · rw [apply_A hv1 ha1, addOrder_A habs hs, apply_C hv2 ha2]
    rw [cancelOrder_some_A (p := r1.price) (by simp [hid, hs, aFind_aSet_self])]
    refine ⟨rfl, ?_, ?_⟩
    · rw [hid]
      exact side_roundtrip askLT_ok hInv.2.1 hvp habs hneA
    · rw [hid]
      exact aErase_aSet _ habs

/-- C8 witness: the round trip evaluated on the empty book with
`rAdd1` and its matching Cancel. -/
theorem c8_roundtrip_witness :
    aFind OrderBook.init.order_lookup rAdd1.order_id = none ∧
    (OrderBook.Apply (OrderBook.Apply OrderBook.init rAdd1).1 rCancel1).1.bids =
      OrderBook.init.bids ∧
    (OrderBook.Apply (OrderBook.Apply OrderBook.init rAdd1).1 rCancel1).1.asks =
      OrderBook.init.asks ∧
    (OrderBook.Apply (OrderBook.Apply OrderBook.init rAdd1).1 rCancel1).1.order_lookup =
      OrderBook.init.order_lookup := by
  refine ⟨rfl, ?_⟩
  exact c8_roundtrip OrderBook.init rAdd1 rCancel1 inv_init
    (by simp [OrderBook.init]) (by simp [OrderBook.init]) rfl rfl (by decide)
    (Or.inl rfl) rfl (by decide) rfl

/-- C7 (amended): the level-layer `AddOrder` does not reject a
duplicate order id.  For an `oid` already stored in the level, it
overwrites the stored size with the new one (the `orders` map does not
grow), while still adding the new size into `total_size` (mod `2^32`)
and incrementing `order_count` (mod `2^32`); protection against
duplicates lives at the book layer's order index instead. -/
theorem c7_add_duplicate (l : PriceLevel) (oid sz s0 : Nat)
    (hmem : (oid, s0) ∈ l.orders) (hnd : (l.orders.map (·.1)).Nodup) :
    aFind (l.AddOrder oid sz).orders oid = some (sz % U32) ∧
    (l.AddOrder oid sz).orders.length = l.orders.length ∧
    (l.AddOrder oid sz).total_size = (l.total_size + sz) % U32 ∧
    (l.AddOrder oid sz).order_count = (l.order_count + 1) % U32 := by
  have hf : aFind l.orders oid = some s0 := mem_aFind hnd hmem
  exact ⟨aFind_aSet_self _ _ _, length_aSet_some _ hf, rfl, rfl⟩

/-- C7 witness: the duplicate add of order 1 with size 3 onto a level
already holding order 1 with size 2. -/
theorem c7_add_duplicate_witness :
    (1, 2) ∈ (⟨10, 2, 1, [(1, 2)]⟩ : PriceLevel).orders ∧
    (((⟨10, 2, 1, [(1, 2)]⟩ : PriceLevel).orders.map (·.1)).Nodup ∧
     aFind ((⟨10, 2, 1, [(1, 2)]⟩ : PriceLevel).AddOrder 1 3).orders 1 =
       some (3 % U32) ∧
     ((⟨10, 2, 1, [(1, 2)]⟩ : PriceLevel).AddOrder 1 3).orders.length =
       (⟨10, 2, 1, [(1, 2)]⟩ : PriceLevel).orders.length) := by
  refine ⟨by decide, by decide, ?_, ?_⟩
  · exact (c7_add_duplicate ⟨10, 2, 1, [(1, 2)]⟩ 1 3 2 (by decide) (by decide)).1
  · exact (c7_add_duplicate ⟨10, 2, 1, [(1, 2)]⟩ 1 3 2 (by decide) (by decide)).2.1

end MBP
